import Mathlib

/-!
Verification development for the key-expansion core of `obf.py` (an OBF
behavioral-data parser).  The definitions below are a shallow embedding of
the Python source:

* `Node` models the YAML/OBF value tree (`None` is `Node.absent`, Python
  lists are `Node.seq`, Python dicts are `Node.map` as association lists
  that preserve insertion order, scalars are `Node.str` / `Node.num`).
* `_add_datum_loop` models the loop body of `OBF_Load._add_datum`
  (obf.py lines 389-438), including the path-string keyed `name_cache`
  and the dynamically executed path assignments, re-expressed as explicit
  navigation over `Node`.
* `parse_one_key` models one iteration of the `for key in other_keys`
  loop of `OBF_Load.parse_keys` (obf.py lines 308-337).
* `walkNode`-and-friends model `process_values`/`walk_values`
  (obf.py lines 440-483) with the default conventions of
  `_get_default_conventions` (obf.py lines 512-575).

Python exceptions are modeled with `Except Err`; an uncaught exception is
a `.error` result that aborts the whole run, matching the absence of any
try/except around these code paths in the source.
-/

/-- Python `str.lower()` for the ASCII byte strings OBF works with. -/
def lowerStr (s : String) : String :=
  String.mk (s.toList.map Char.toLower)

/-- Python `re.match(r"^\d+$", s)`: `s` is one or more decimal digits
(`_numeric_re` in obf.py line 68). -/
def isNumeric (s : String) : Bool :=
  !s.toList.isEmpty && s.toList.all Char.isDigit

/-- Python `int(s)` on a string of decimal digits (leading zeros allowed). -/
def digitsToNat (s : String) : Nat :=
  s.toList.foldl (fun a c => 10 * a + (c.toNat - 48)) 0

/-- `s.split('.', 1)` when it succeeds: the text before the first `.` and
everything after it.  `none` when `s` has no `.` (in which case the Python
2-tuple unpacking `name, index = s.split('.', 1)` raises `ValueError`). -/
def splitFirstDotL : List Char → Option (List Char × List Char)
  | [] => none
  | c :: t =>
    if c = '.' then some ([], t)
    else (splitFirstDotL t).map (fun p => (c :: p.1, p.2))

def splitFirstDot (s : String) : Option (String × String) :=
  (splitFirstDotL s.toList).map (fun p => (String.mk p.1, String.mk p.2))

/-- Python `s.split('+')` (no limit, empty pieces kept). -/
def splitPlusL : List Char → List (List Char)
  | [] => [[]]
  | c :: t =>
    if c = '+' then [] :: splitPlusL t
    else
      match splitPlusL t with
      | [] => [[c]]
      | a :: r => (c :: a) :: r

def splitPlus (s : String) : List String :=
  (splitPlusL s.toList).map String.mk

/-- The value tree built by the parser.  Python `None` (also the Absence
marker used to back-fill implied list positions) is `absent`; dict keys are
strings, which is the only key kind the expansion code ever creates. -/
inductive Node where
  | str : String → Node
  | num : Int → Node
  | absent : Node
  | seq : List Node → Node
  | map : List (String × Node) → Node

/-- `d[k]` lookup on a Python dict modeled as an insertion-ordered
association list. -/
def lookupA : List (String × Node) → String → Option Node
  | [], _ => none
  | (k, v) :: t, s => if k = s then some v else lookupA t s

/-- `d[k] = v` on a dict: replace in place if the key exists, else append. -/
def updateA : List (String × Node) → String → Node → List (String × Node)
  | [], s, v => [(s, v)]
  | (k, w) :: t, s, v => if k = s then (k, v) :: t else (k, w) :: updateA t s v

/-- `del d[k]` on a dict (the key is present in every modeled call site). -/
def eraseA : List (String × Node) → String → List (String × Node)
  | [], _ => []
  | (k, w) :: t, s => if k = s then t else (k, w) :: eraseA t s

/-- One `[...]` accessor token of the textual build string assembled by
`_add_datum` (`s_data_build_string`): `qs s` renders as `['s']` (a dict
access — both dimension names and string labels render this way) and
`qi i` renders as `[i]` (a list access).  Rendering is injective on these
token lists, so the string-keyed `name_cache` is modeled as a list of
token lists. -/
inductive Tok where
  | qs : String → Tok
  | qi : Nat → Tok
deriving DecidableEq

/-- An index of a compound-key segment: all-digit text becomes an
`ord`inal (list index), anything else a `lab`el (dict key).  This is the
`(name, index, index_type_int)` encoding of `parse_keys`. -/
inductive Index where
  | ord : Nat → Index
  | lab : String → Index
deriving DecidableEq

/-- One `(dimensionName, index)` step of a compiled compound key. -/
abbrev Step := String × Index

/-- The accessor token `repr(index)` appended to the build string. -/
def accOf : Index → Tok
  | .ord i => .qi i
  | .lab s => .qs s

/-- The full accessor path `['n1'][i1]['n2'][i2]...` of a step list. -/
def stepsAcc (steps : List Step) : List Tok :=
  steps.flatMap (fun st => [Tok.qs st.1, accOf st.2])

/-- Navigate the tree along accessor tokens, as Python `eval` would
(`none` models the KeyError/IndexError/TypeError of a failed access). -/
def nodeAt : Node → List Tok → Option Node
  | t, [] => some t
  | .map m, .qs s :: r => match lookupA m s with
    | some c => nodeAt c r
    | none => none
  | .seq l, .qi i :: r => match l.get? i with
    | some c => nodeAt c r
    | none => none
  | _, _ => none

/-- Exceptions the modeled code can raise (all uncaught in the source). -/
inductive Err where
  | conflict : String → Err
  /- the explicit
     `raise KeyError, "OBF: ERROR: fundamental ambiguity ... key '%s'"`
     of `_add_datum` (obf.py line 416), carrying the offending key -/
  | attrError : Err
  /- `AttributeError`: `self.base_index` read but never assigned
     (obf.py line 392 vs lines 247-253) -/
  | typeError : Err
  /- a runtime `TypeError`/`KeyError`/`IndexError` from `exec`/`eval`
     of a build string over an incompatible structure -/
  | valueError : Err
  /- `ValueError`: 2-tuple unpacking of `condition.split('.', 1)` when a
     segment has no `.` (obf.py lines 309/328) -/
deriving DecidableEq

/-- `l += [None] * (n - len(l))`: the
`while len(tmp) < index+1: tmp.append(None)` growth loop. -/
def growTo (l : List Node) (n : Nat) : List Node :=
  l ++ List.replicate (n - l.length) Node.absent

/-- The `_add_datum` loop body after the index-0 check: extend the build
string by `['name']`, take the cached or the new-dimension branch, recurse
(through `recur`, instantiated with the loop on the remaining steps)
inside the chosen element, and rebuild the spine.  `key` only feeds the
conflict message. -/
def _add_datum_body
    (recur : Node → List Tok → List (List Tok) → List String →
      Except Err (Node × List (List Tok) × List String))
    (key : String) (name : String) (ix : Index) (cur : Node)
    (p : List Tok) (cache : List (List Tok)) (rep1 : List String) :
    Except Err (Node × List (List Tok) × List String) :=
  let p1 := p ++ [Tok.qs name]
  if p1 ∈ cache then
    -- existing dimension: `exec('tmp=' + s_data_build_string)`
    match cur with
    | .map m =>
      match lookupA m name with
      | none => .error .typeError
      | some tmp =>
        match ix, tmp with
        | .ord i, .seq l =>
          let l1 := growTo l (i + 1)
          let l2 := match l1.get? i with
            | some .absent => l1.set i (.map [])
            | _ => l1
          match l2.get? i with
          | none => .error .typeError
          | some elem =>
            match recur elem (p1 ++ [Tok.qi i]) cache rep1 with
            | .error e => .error e
            | .ok (elem', c', r') =>
              .ok (.map (updateA m name (.seq (l2.set i elem'))), c', r')
        | .lab s, .map mm =>
          let mm1 := if (lookupA mm s).isSome then mm else mm ++ [(s, .map [])]
          match lookupA mm1 s with
          | none => .error .typeError
          | some elem =>
            match recur elem (p1 ++ [Tok.qs s]) cache rep1 with
            | .error e => .error e
            | .ok (elem', c', r') =>
              .ok (.map (updateA m name (.map (updateA mm1 s elem'))), c', r')
        | _, _ =>
          -- `raise KeyError, "OBF: ERROR: fundamental ambiguity ..."`
          .error (.conflict key)
    | _ => .error .typeError
  else
    -- new dimension: flag the cache, `exec` a fresh list or dict
    let cache1 := p1 :: cache
    match cur with
    | .map m =>
      match ix with
      | .ord i =>
        match recur (.map []) (p1 ++ [Tok.qi i]) cache1 rep1 with
        | .error e => .error e
        | .ok (elem', c', r') =>
          .ok (.map (updateA m name
                (.seq ((List.replicate (i + 1) Node.absent).set i elem'))), c', r')
      | .lab s =>
        match recur (.map []) (p1 ++ [Tok.qs s]) cache1 rep1 with
        | .error e => .error e
        | .ok (elem', c', r') =>
          .ok (.map (updateA m name (.map [(s, elem')])), c', r')
    | _ => .error .typeError

/-- The body of `OBF_Load._add_datum` (obf.py lines 389-438).

The Python code walks `self.data` from the root, extending a textual build
string one `['name']`/`[index]` pair per step, consulting `name_cache`
(keyed by the build string, here `cache : List (List Tok)`), growing lists
with `None` padding, instantiating missing dicts/lists with `exec`, and
finally `exec`-assigning `datum` at the full path.  Since every mutation
happens along the single descent path, the loop is a structural recursion
that rebuilds the spine functionally:

* `bi` is `self.base_index` (`none` when the attribute was never set);
* `datum` is the value to place, `key` the original flat key (used only in
  the conflict message);
* `cur` is the node the build string currently denotes, `p` its absolute
  accessor path (even length);
* the result is the rebuilt `cur`, the extended cache and report. -/
def _add_datum_loop (bi : Option Nat) (datum : Node) (key : String) :
    List Step → Node → List Tok → List (List Tok) → List String →
    Except Err (Node × List (List Tok) × List String)
  | [], _cur, _p, cache, rep =>
    -- loop finished: `exec(s_data_build_string + '=' + repr(datum))`
    -- replaces whatever the full path denotes with `datum`
    .ok (datum, cache, rep)
  | (name, ix) :: rest, cur, p, cache, rep =>
    -- `if index == 0 and self.base_index == 1:` — `index == 0` is tested
    -- first; only then is the attribute read (raising when never set) and
    -- compared to 1, appending the warning on equality
    let recur := fun elem pth cch rp =>
      _add_datum_loop bi datum key rest elem pth cch rp
    if ix = Index.ord 0 then
      match bi with
      | none => .error .attrError
      | some b =>
        _add_datum_body recur key name ix cur p cache
          (if b = 1 then
            rep ++ ["OBF: WARNING: one_indexed requested, but index 0 received"]
          else rep)
    else _add_datum_body recur key name ix cur p cache rep

/-- Run a list of placements `(steps, scalar value)` left to right from a
root tree, threading cache and report — the placement work a sequence of
complex keys feeds through `_add_datum`. -/
def runPlacements (bi : Option Nat) :
    List (List Step × String) → Node → List (List Tok) → List String →
    Except Err (Node × List (List Tok) × List String)
  | [], t, c, r => .ok (t, c, r)
  | (steps, v) :: rest, t, c, r =>
    match _add_datum_loop bi (.str v) "" steps t [] c r with
    | .error e => .error e
    | .ok (t', c', r') => runPlacements bi rest t' c' r'

/-- The built-in unit vocabulary `_UNITS` (obf.py lines 46-58). -/
def _UNITS : List String :=
  ["ms", "sec", "utime", "cm", "deg", "hz", "pix", "norm",
   "rgb", "dkl", "lms", "percent", "tf", "yn", "bool", "hex", "base64"]

/-- `self.units = map(lambda x: x.lower(), units)` with the default
vocabulary (obf.py line 112). -/
def unitsVocab : List String := _UNITS.map lowerStr

/-- Python 2 `hasattr(d, name)` for a plain `dict` instance `d`: true
exactly when `name` is one of the type's attributes — never true for the
dictionary's *keys*.  This models the membership test of obf.py line 315,
`if hasattr(self.data, name):`. -/
def hasattrDict (name : String) : Bool :=
  name ∈ ["__class__", "__cmp__", "__contains__", "__delattr__",
    "__delitem__", "__doc__", "__eq__", "__format__", "__ge__",
    "__getattribute__", "__getitem__", "__gt__", "__hash__", "__init__",
    "__iter__", "__le__", "__len__", "__lt__", "__ne__", "__new__",
    "__reduce__", "__reduce_ex__", "__repr__", "__setattr__",
    "__setitem__", "__sizeof__", "__str__", "__subclasshook__",
    "clear", "copy", "fromkeys", "get", "has_key", "items", "iteritems",
    "iterkeys", "itervalues", "keys", "pop", "popitem", "setdefault",
    "update", "values", "viewitems", "viewkeys", "viewvalues"]

/-- The parser state threaded through `parse_keys`: `self.data` (a dict at
the top level), `self.name_cache`, `self.report`, and `self.base_index`
(`none` models the attribute never having been assigned). -/
structure St where
  data : List (String × Node)
  cache : List (List Tok)
  report : List String
  base_index : Option Nat
deriving Inhabited

/-- `self.base_index` after `process_yaml` (obf.py lines 247-253): the
attribute is assigned only inside `if len(prepro) > 0:`; it becomes 0
exactly when the `zero_indexed` directive is present, else 1. -/
def base_index_of (prepro : List String) : Option Nat :=
  if prepro = [] then none
  else some (if "zero_indexed" ∈ prepro then 0 else 1)

/-- The segment-compilation loop of `parse_keys` (obf.py lines 324-332):
`for condition in key.split('+')`.  A segment without `.` first appends
"OBF: ERROR: mal-formed complex key" to the report and then crashes with
`ValueError` on `name, index = condition.split('.', 1)` — the crash
unwinds the constructor, so the appended message is never observable and
the model simply returns the error. -/
def compileSegments : List String → Except Err (List Step)
  | [] => .ok []
  | seg :: t =>
    match splitFirstDot seg with
    | none => .error .valueError
    | some (n, ixText) =>
      match compileSegments t with
      | .error e => .error e
      | .ok rest =>
        .ok ((if isNumeric ixText then (n, Index.ord (digitsToNat ixText))
              else (n, Index.lab ixText)) :: rest)

/-- `_add_datum` as called from `parse_keys` (obf.py line 336): run the
placement loop from the root `self.data`. -/
def _add_datum (steps : List Step) (datum : Node) (key : String) (st : St) :
    Except Err St :=
  match _add_datum_loop st.base_index datum key steps (.map st.data) []
      st.cache st.report with
  | .error e => .error e
  | .ok (.map m, c', r') => .ok { st with data := m, cache := c', report := r' }
  | .ok (_, _, _) => .error .typeError
  -- the root stays a dict whenever `steps` is nonempty, which holds for
  -- every key `parse_keys` compiles

/-- One iteration of the `for key in other_keys` loop of `parse_keys`
(obf.py lines 308-337): the `units`-label skip, the name-with-units
rename (with its `hasattr` membership test), segment compilation, the
placement via `_add_datum`, and the final `del self.data[key]`. -/
def parse_one_key (key : String) (st : St) : Except Err St :=
  match splitFirstDot key with
  | none => .error .valueError
  | some (name, index) =>
    if lowerStr index = "units" then .ok st
    else if lowerStr index ∈ unitsVocab then
      if hasattrDict name then
        .ok { st with report := st.report ++
          ["OBF: ERROR: " ++ key ++ " has units " ++ lowerStr index ++
           ", but key conflicts with existing key"] }
      else
        match lookupA st.data key with
        | none => .error .typeError
        | some v =>
          .ok { st with
            data := eraseA (updateA (updateA st.data name v)
                      (name ++ ".units") (.str index)) key,
            report := st.report ++
              ["OBF: NOTE: treating " ++ key ++ " as " ++ name ++
               " with units " ++ lowerStr index] }
    else
      match compileSegments (splitPlus key) with
      | .error e => .error e
      | .ok steps =>
        match lookupA st.data key with
        | none => .error .typeError
        | some datum =>
          match _add_datum steps datum key st with
          | .error e => .error e
          | .ok st' => .ok { st' with data := eraseA st'.data key }

/-- The `for key in other_keys` loop over a given iteration order (Python
iterates a `set`, whose order is unspecified; every claim below either
fixes an order or holds for all of them).  An exception from any iteration
propagates and aborts the whole run. -/
def parse_keys_run : List String → St → Except Err St
  | [], st => .ok st
  | k :: ks, st =>
    match parse_one_key k st with
    | .error e => .error e
    | .ok st' => parse_keys_run ks st'

/-- `_label_dot_units_re = ^([a-zA-Z_][^.]*)\.(.+)$` (obf.py line 67):
capture the part before the first `.` (which must start with a letter or
underscore) and the nonempty part after it. -/
def isAlphaUnd (c : Char) : Bool :=
  (('a' ≤ c && c ≤ 'z') || ('A' ≤ c && c ≤ 'Z')) || c = '_'

def splitDotNonempty : List Char → Option (List Char × List Char)
  | [] => none
  | c :: t =>
    if c = '.' then if t = [] then none else some ([], t)
    else (splitDotNonempty t).map (fun p => (c :: p.1, p.2))

def labelDotUnits (s : String) : Option (String × String) :=
  match s.toList with
  | [] => none
  | c :: t =>
    if isAlphaUnd c then
      (splitDotNonempty t).map (fun p => (String.mk (c :: p.1), String.mk p.2))
    else none

/-- `re.match(r"^_\d+_$", s)`: underscore, one or more digits, underscore. -/
def digitShape (s : String) : Bool :=
  match s.toList with
  | '_' :: t =>
    match t.reverse with
    | '_' :: midRev => !midRev.isEmpty && midRev.all Char.isDigit
    | _ => false
  | _ => false

/-- `re.match(r"^[a-zA-Z_].*\..+$", s)`: first character a letter or
underscore, and somewhere after it a `.` followed by at least one more
character.  (`.` in the pattern matches any character but newline; OBF
keys cannot contain newlines.) -/
def unitsHot (s : String) : Bool :=
  match s.toList with
  | [] => false
  | c :: t => isAlphaUnd c && (t.dropLast.any (fun d => d = '.'))

/-- `re.match(regex, key)` for the two anchored patterns the default
conventions use (a general regex engine is out of scope; these are the
only patterns `walk_values` ever hands to `re.match` in the default
configuration, and each is embedded above as a decidable matcher). -/
def reMatch (pat key : String) : Bool :=
  if pat = "^_\\d+_$" then digitShape key
  else if pat = "^[a-zA-Z_].*\\..+$" then unitsHot key
  else false

/-- The matching test of `walk_values` (obf.py line 471):
`regex == key or (regex[0] == '^' and regex[-1] == '$' and
re.match(regex, key))`. -/
def rule_match (pat key : String) : Bool :=
  pat = key ||
    (pat.toList.head? = some '^' && pat.toList.getLast? = some '$' &&
     reMatch pat key)

/-- The four default actions of `_get_default_conventions`
(obf.py lines 534-575). -/
inductive RuleId where
  | randomSeed | mouse | digits | unitsRe
deriving DecidableEq

/-- The default `hot_key : action` pairs (obf.py lines 567-574).  The
Python dict is unordered; the four matchers are pairwise disjoint on any
key, so a list in source order is a faithful model. -/
def default_conventions : List (String × RuleId) :=
  [("random_seed", .randomSeed),
   ("mouse", .mouse),
   ("^_\\d+_$", .digits),
   ("^[a-zA-Z_].*\\..+$", .unitsRe)]

/-- First matching rule for a key (`for regex in hot_keys: ... break`). -/
def find_rule : List (String × RuleId) → String → Option RuleId
  | [], _ => none
  | (pat, rid) :: t, key =>
    if rule_match pat key then some rid else find_rule t key

/-- `process_units` (obf.py lines 540-555): rename `name.label` to `name`,
move the value, add the sibling `name.units` (lower-cased when the label
is in the vocabulary), skip entirely when the label is `units`, warn when
the capture fails.  Result: (updated dict, report additions, optional
`new_key`). -/
def process_units (m : List (String × Node)) (key : String)
    (voc : List String) : List (String × Node) × List String × Option String :=
  match labelDotUnits key with
  | some (new_key, u) =>
    if lowerStr u = "units" then (m, [], none)
    else
      let u1 := if lowerStr u ∈ voc then lowerStr u else u
      match lookupA m key with
      | some v =>
        (eraseA (updateA (updateA m new_key v) (new_key ++ ".units") (.str u1))
           key, [], some new_key)
      | none => (m, [], none)
      -- a `KeyError` cannot happen: `walk_values` only hands over keys
      -- present in the dict
  | none => (m, ["OBF: WARN: bad units for " ++ key], none)

/-- `convert_digits_as_str` (obf.py lines 534-539): strip every
underscore from the key, keep the value, report the rename. -/
def convert_digits_as_str (m : List (String × Node)) (key : String) :
    List (String × Node) × List String × Option String :=
  let new_key := String.mk (key.toList.filter (fun c => !(c = '_')))
  match lookupA m key with
  | some v => (eraseA (updateA m new_key v) key, [], some new_key)
  | none => (m, [], none)

/-- `screen_random_seed` (obf.py lines 556-558): warn when the value is
the literal string `None`. -/
def screen_random_seed (m : List (String × Node)) (key : String) :
    List String :=
  match lookupA m key with
  | some (.str v) =>
    if v = "None" then ["OBF: WARNING: ambiguous random_seed None"] else []
  | _ => []

/-- `screen_mouse` (obf.py lines 559-566): a mouse dict must have `x`/`y`
keys or a 2-element `pos` list. -/
def screen_mouse (m : List (String × Node)) (key : String) : List String :=
  match lookupA m key with
  | some (.map mm) =>
    if (lookupA mm "x").isSome || (lookupA mm "y").isSome then []
    else
      match lookupA mm "pos" with
      | some (.seq l) => if l.length = 2 then [] else ["OBF: ERROR: mouse lacks xy or pos"]
      | _ => ["OBF: ERROR: mouse lacks xy or pos"]
  | _ => []

/-- Dispatch of `conventions[regex](this_level, key, self)`. -/
def apply_rule (rid : RuleId) (m : List (String × Node)) (key : String)
    (voc : List String) : List (String × Node) × List String × Option String :=
  match rid with
  | .randomSeed => (m, screen_random_seed m key, none)
  | .mouse => (m, screen_mouse m key, none)
  | .digits => convert_digits_as_str m key
  | .unitsRe => process_units m key voc

/-- The keys of a dict, in insertion order (`this_level.keys()` snapshots
the key list before the loop mutates the dict). -/
def keysOf (m : List (String × Node)) : List String := m.map Prod.fst

mutual
/-- `walk_values(this_level)` (obf.py lines 446-482) on one node.  `fuel`
bounds the recursion so the model is total; every theorem below takes a
`= some _` hypothesis, which any sufficiently large fuel satisfies on a
finite tree.  Scalars hit the `assert False` branch, modeled as `none` —
unreachable because callers only descend into lists and dicts. -/
def walkNode (rules : List (String × RuleId)) (voc : List String) :
    Nat → Node → List String → Option (Node × List String)
  | 0, _, _ => none
  | fuel + 1, .seq l, rep =>
    match walkSeq rules voc fuel l rep with
    | some (l', rep') => some (.seq l', rep')
    | none => none
  | fuel + 1, .map m, rep =>
    match walkGo rules voc fuel (keysOf m) m rep with
    | some (m', rep') => some (.map m', rep')
    | none => none
  | _ + 1, _, _ => none

/-- `for item in this_level:` over a list: descend into list/dict items,
leave scalars alone. -/
def walkSeq (rules : List (String × RuleId)) (voc : List String) :
    Nat → List Node → List String → Option (List Node × List String)
  | 0, _, _ => none
  | _ + 1, [], rep => some ([], rep)
  | fuel + 1, x :: xs, rep =>
    match x with
    | .seq _ | .map _ =>
      match walkNode rules voc fuel x rep with
      | some (x', rep') =>
        match walkSeq rules voc fuel xs rep' with
        | some (xs', rep'') => some (x' :: xs', rep'')
        | none => none
      | none => none
    | _ =>
      match walkSeq rules voc fuel xs rep with
      | some (xs', rep') => some (x :: xs', rep')
      | none => none

/-- `for key in this_level.keys():` over the snapshotted key list: fire
the first matching rule, honor a `new_key` rename, then descend into the
(possibly renamed) key's value when it is a list or dict. -/
def walkGo (rules : List (String × RuleId)) (voc : List String) :
    Nat → List String → List (String × Node) → List String →
    Option (List (String × Node) × List String)
  | 0, _, _, _ => none
  | _ + 1, [], m, rep => some (m, rep)
  | fuel + 1, k :: ks, m, rep =>
    let res := match find_rule rules k with
      | some rid => apply_rule rid m k voc
      | none => (m, [], none)
    let m1 := res.1
    let rep1 := rep ++ res.2.1
    let key1 := match res.2.2 with
      | some nk => nk
      | none => k
    match lookupA m1 key1 with
    | none => none  -- Python KeyError on `this_level[key]`
    | some v =>
      match v with
      | .seq _ | .map _ =>
        match walkNode rules voc fuel v rep1 with
        | some (v', rep') => walkGo rules voc fuel ks (updateA m1 key1 v') rep'
        | none => none
      | _ => walkGo rules voc fuel ks m1 rep1
end

/-! ### Association-list and list helper lemmas -/

theorem lookupA_updateA_self (m : List (String × Node)) (k : String) (v : Node) :
    lookupA (updateA m k v) k = some v := by
  induction m with
  | nil => simp [updateA, lookupA]
  | cons h t ih =>
    by_cases hk : h.1 = k
    · simp [updateA, hk, lookupA]
    · simp [updateA, hk, lookupA, ih]

theorem lookupA_updateA_ne (m : List (String × Node)) (k k' : String) (v : Node)
    (h : k' ≠ k) : lookupA (updateA m k v) k' = lookupA m k' := by
  induction m with
  | nil =>
    have : ¬ k = k' := fun hh => h hh.symm
    simp [updateA, lookupA, this]
  | cons hd t ih =>
    by_cases hk : hd.1 = k
    · have hne : ¬ hd.1 = k' := fun hh => h (hk ▸ hh).symm
      rw [updateA, if_pos hk, lookupA, lookupA, if_neg hne, if_neg hne]
    · rw [updateA, if_neg hk, lookupA, lookupA, ih]

theorem lookupA_eraseA_ne (m : List (String × Node)) (k k' : String)
    (h : k' ≠ k) : lookupA (eraseA m k) k' = lookupA m k' := by
  induction m with
  | nil => simp [eraseA]
  | cons hd t ih =>
    by_cases hk : hd.1 = k
    · have hne : ¬ hd.1 = k' := fun hh => h (hk ▸ hh).symm
      rw [eraseA, if_pos hk, lookupA, if_neg hne]
    · rw [eraseA, if_neg hk, lookupA, lookupA, ih]

theorem keysOf_updateA (m : List (String × Node)) (k : String) (v : Node) :
    keysOf (updateA m k v) = if k ∈ keysOf m then keysOf m else keysOf m ++ [k] := by
  induction m with
  | nil => simp [updateA, keysOf]
  | cons hd t ih =>
    by_cases hk : hd.1 = k
    · simp [updateA, hk, keysOf]
    · have : ¬ k = hd.1 := fun hh => hk hh.symm
      simp [updateA, hk, keysOf, this] at ih ⊢
      rw [ih]
      by_cases hm : k ∈ t.map Prod.fst <;> simp [hm, this]

theorem nodup_keysOf_updateA (m : List (String × Node)) (k : String) (v : Node)
    (h : (keysOf m).Nodup) : (keysOf (updateA m k v)).Nodup := by
  rw [keysOf_updateA]
  by_cases hm : k ∈ keysOf m
  · simpa [hm]
  · simpa [hm, List.nodup_append] using h

theorem lookupA_not_mem_keys (t : List (String × Node)) (k : String)
    (hn : k ∉ keysOf t) : lookupA t k = none := by
  induction t with
  | nil => rfl
  | cons hd2 t2 ih2 =>
    simp only [keysOf, List.map_cons, List.mem_cons] at hn
    push_neg at hn
    rw [lookupA, if_neg (fun hh => hn.1 hh.symm)]
    exact ih2 hn.2

theorem lookupA_eraseA_self (m : List (String × Node)) (k : String)
    (h : (keysOf m).Nodup) : lookupA (eraseA m k) k = none := by
  induction m with
  | nil => simp [eraseA, lookupA]
  | cons hd t ih =>
    simp only [keysOf, List.map_cons, List.nodup_cons] at h
    by_cases hk : hd.1 = k
    · rw [eraseA, if_pos hk]
      exact lookupA_not_mem_keys t k (hk ▸ h.1)
    · rw [eraseA, if_neg hk, lookupA, if_neg hk]
      exact ih h.2

theorem get?_replicate_absent (n i : Nat) (h : i < n) :
    (List.replicate n Node.absent).get? i = some Node.absent := by
  simp [List.get?_eq_getElem?, h]

theorem length_growTo (l : List Node) (n : Nat) :
    (growTo l n).length = max l.length n := by
  simp [growTo]
  omega

theorem growTo_eq_self (l : List Node) (n : Nat) (h : n ≤ l.length) :
    growTo l n = l := by
  simp [growTo, Nat.sub_eq_zero_of_le h]

theorem get?_growTo_lt (l : List Node) (n j : Nat) (h : j < l.length) :
    (growTo l n).get? j = l.get? j := by
  simp only [growTo, List.get?_eq_getElem?]
  rw [List.getElem?_append_left h]

theorem get?_growTo_pad (l : List Node) (n j : Nat) (h1 : l.length ≤ j)
    (h2 : j < n) : (growTo l n).get? j = some Node.absent := by
  unfold growTo
  rw [List.get?_append_right h1]
  exact get?_replicate_absent _ _ (by omega)

theorem get?_set_self (l : List Node) (i : Nat) (a : Node) (h : i < l.length) :
    (l.set i a).get? i = some a := by
  simp [List.get?_eq_getElem?, h]

/-! ### Concrete parser states used by counterexamples and witnesses -/

/-- Flat mapping holding `a.1`, `a.x`, `b.1` (complex keys), no
preprocessing beyond `one_indexed` (`base_index = 1`). -/
def stC2 : St :=
  ⟨[("a.1", .str "v1"), ("a.x", .str "v2"), ("b.1", .str "v3")], [], [], some 1⟩

/-- The state `parse_one_key "a.1" stC2` produces: `a.1` placed as
`a = [None, "v1"]` and removed from the mapping. -/
def stC2' : St :=
  ⟨[("a.x", .str "v2"), ("b.1", .str "v3"), ("a", .seq [.absent, .str "v1"])],
   [[Tok.qs "a"]], [], some 1⟩

def stC5 : St := ⟨[("a+b.1", .str "v")], [], [], some 1⟩

def stC5' : St := ⟨[("a.b.c", .str "v")], [], [], some 1⟩

def stC6 : St := ⟨[("name", .str "w"), ("name.ms", .str "v")], [], [], some 1⟩

def stC7 : St := ⟨[("a.units+b.1", .str "v")], [], [], some 1⟩

def stC7' : St := ⟨[("a+b.units", .str "v")], [], [], some 1⟩

/-! ### C2 -/

/-- C2, counterexample.  The claim says a structural conflict aborts only
that key's placement, still removes the flat key, and lets the run
continue.  In the code the `raise KeyError` of `_add_datum` (obf.py line
416) is uncaught — there is no try/except around the call in `parse_keys`
(obf.py lines 334-337) — so processing `a.1`, then the conflicting `a.x`,
then `b.1` aborts the entire run at `a.x`: the flat key `a.x` is never
deleted and `b.1` is never processed. -/
theorem C2_counterexample :
    parse_keys_run ["a.1", "a.x", "b.1"] stC2 = .error (.conflict "a.x") := rfl

/-- C2, amended.  A kind mismatch at a shared (cached) path prefix raises
an uncaught `KeyError` naming the offending key; the exception propagates
out of the whole `parse_keys` loop, so the conflicting flat key is not
removed and no later key is processed. -/
theorem C2_conflict_aborts_run (ks1 : List String) (k : String)
    (ks2 : List String) (st st1 : St) (e : Err)
    (h1 : parse_keys_run ks1 st = .ok st1)
    (h2 : parse_one_key k st1 = .error e) :
    parse_keys_run (ks1 ++ k :: ks2) st = .error e := by
  induction ks1 generalizing st with
  | nil =>
    rw [parse_keys_run] at h1
    cases h1
    rw [List.nil_append, parse_keys_run, h2]
  | cons a t ih =>
    rw [List.cons_append, parse_keys_run]
    rw [parse_keys_run] at h1
    cases hh : parse_one_key a st with
    | error e' => rw [hh] at h1; cases h1
    | ok st' => rw [hh] at h1; exact ih st' h1

/-- C2, witness for `C2_conflict_aborts_run` at a concrete run: after
placing `a.1`, the label-indexed key `a.x` meets the sequence at `a`. -/
theorem C2_conflict_aborts_run_witness :
    parse_keys_run (["a.1"] ++ "a.x" :: ["b.1"]) stC2 =
      .error (.conflict "a.x") :=
  C2_conflict_aborts_run ["a.1"] "a.x" ["b.1"] stC2 stC2'
    (.conflict "a.x") (by rfl) (by rfl)

/-! ### C5 -/

/-- C5.  The claim says a segment with zero or several `.` separators
makes the whole key `MalformedKey`: value dropped, ERROR recorded, run
continues.  The code does neither: (a) for `a+b.1` the dot-less segment
`a` appends the mal-formed ERROR and then crashes the run with an uncaught
`ValueError` on `name, index = condition.split('.', 1)` (obf.py line 328);
(b) for `a.b.c` the multi-dot segment is not malformed at all — it is
placed structurally as dimension `a` with Label index `b.c` and no error
(the two-dot detector `_two_dots_re` of obf.py line 65 is never used). -/
theorem C5_malformed_key :
    parse_one_key "a+b.1" stC5 = .error .valueError
    ∧ parse_one_key "a.b.c" stC5' =
        .ok ⟨[("a", .map [("b.c", .str "v")])], [[Tok.qs "a"]], [], some 1⟩ :=
  ⟨rfl, rfl⟩

/-! ### C6 -/

/-- C6.  The claim (and the code's own error message) call for a Collision
ERROR, leaving both entries untouched, when `name` already exists while
renaming `name.ms`.  The membership test is `hasattr(self.data, name)`
(obf.py line 315) on a plain dict, which tests *attributes*, never keys:
with `name` present in the mapping the rename still fires, silently
overwriting the existing `name` entry and emitting only the NOTE. -/
theorem C6_units_collision_missed :
    parse_one_key "name.ms" stC6 =
      .ok ⟨[("name", .str "v"), ("name.units", .str "ms")], [], 
        ["OBF: NOTE: treating name.ms as name with units ms"], some 1⟩
    ∧ hasattrDict "name" = false := ⟨rfl, rfl⟩

/-! ### C7 -/

/-- C7, counterexample.  The claim says any segment whose index text is
`units` — even alongside other `+` segments — makes the whole key
non-structural.  The code only tests the text after the *first* `.` of the
whole key (obf.py lines 309-312), so `a.units+b.1` is placed structurally:
`units` becomes an ordinary Label dimension and the value lands at
`a['units']['b'][1]`. -/
theorem C7_counterexample :
    parse_one_key "a.units+b.1" stC7 =
      .ok ⟨[("a", .map [("units", .map [("b", .seq [.absent, .str "v"])])])],
        [[Tok.qs "a", Tok.qs "units", Tok.qs "b"], [Tok.qs "a"]], [], some 1⟩ :=
  rfl

/-- C7, amended.  A key is skipped by `parse_keys` (left untouched, for
the later convention walk) exactly when the *entire* text after its first
`.` lower-cases to `units` — so `a+b.units` is skipped, while a `units`
segment alongside further `+` segments (`a.units+b.1`) is placed
structurally with `units` as a Label index. -/
theorem C7_units_suffix_skip :
    (∀ (key n idx : String) (st : St),
      splitFirstDot key = some (n, idx) → lowerStr idx = "units" →
      parse_one_key key st = .ok st)
    ∧ (∃ st', parse_one_key "a.units+b.1" stC7 = .ok st'
        ∧ nodeAt (.map st'.data)
            [Tok.qs "a", Tok.qs "units", Tok.qs "b", Tok.qi 1] = some (.str "v")
        ∧ lookupA st'.data "a.units+b.1" = none) := by
  constructor
  · intro key n idx st h1 h2
    rw [parse_one_key, h1]
    simp [h2]
  · exact ⟨_, rfl, rfl, rfl⟩

/-- C7, witness for the skip direction of `C7_units_suffix_skip`:
`a+b.units` (a `units` index text reached through the first `.`) leaves
the state untouched. -/
theorem C7_units_suffix_skip_witness :
    parse_one_key "a+b.units" stC7' = .ok stC7' :=
  C7_units_suffix_skip.1 "a+b.units" "a+b" "units" stC7' (by rfl) (by rfl)

/-! ### C4 -/

/-- C4, counterexample.  The claim says a repeated Ordinal last step
overwrites and emits a WARNING "key repeated".  No such warning exists in
`_add_datum` (obf.py lines 389-438): placing `a.1` twice (as two flat
keys compiling to the same step) overwrites the value and leaves the
report empty. -/
theorem C4_counterexample :
    runPlacements (some 1) [([("a", .ord 1)], "v1"), ([("a", .ord 1)], "v2")]
      (.map []) [] [] =
      .ok (.map [("a", .seq [.absent, .str "v2"])], [[Tok.qs "a"]], []) := rfl

/-- C4, amended.  At the last path step the value is assigned at that
position, overwriting any prior value *silently in both cases*: the final
`exec(build_string + '=' + repr(datum))` of `_add_datum` replaces the
slot without inspecting it, and no "key repeated" warning exists in the
code — the report stays empty for an Ordinal as well as for a Label last
step. -/
theorem C4_overwrite_silent (n : String) (i : Nat) (s v1 v2 : String) :
    runPlacements (some 0) [([(n, .ord i)], v1), ([(n, .ord i)], v2)]
      (.map []) [] [] =
      .ok (.map [(n, .seq ((List.replicate (i+1) Node.absent).set i (.str v2)))],
        [[Tok.qs n]], [])
    ∧ runPlacements (some 0) [([(n, .lab s)], v1), ([(n, .lab s)], v2)]
      (.map []) [] [] =
      .ok (.map [(n, .map [(s, .str v2)])], [[Tok.qs n]], []) := by
  constructor
  · cases i with
    | zero =>
      simp [runPlacements, _add_datum_loop, _add_datum_body, updateA, lookupA,
        growTo_eq_self]
    | succ j =>
      have hget : ((List.replicate (j+1+1) Node.absent).set (j+1) (.str v1)).get? (j+1)
          = some (.str v1) := get?_set_self _ _ _ (by simp)
      simp [runPlacements, _add_datum_loop, _add_datum_body, updateA, lookupA,
        growTo_eq_self _ _ (by simp :
          j+1+1 ≤ ((List.replicate (j+1+1) Node.absent).set (j+1) (Node.str v1)).length),
        hget, List.set_set]
  · simp [runPlacements, _add_datum_loop, _add_datum_body, updateA, lookupA]

/-! ### C8 -/

/-- The units matcher as the spec words it (`^[a-zA-Z0-9_].*\..+$`,
digits allowed as the first character) — a second definition that follows
the claim's text, to be compared against the source's
`^[a-zA-Z_].*\..+$` embedded as `unitsHot`. -/
def specUnitsMatcher (s : String) : Bool :=
  match s.toList with
  | [] => false
  | c :: t => (isAlphaUnd c || c.isDigit) && (t.dropLast.any (fun d => d = '.'))

/-- C8, counterexample.  The default rule set does not contain the
claimed matcher `^[a-zA-Z0-9_].*\..+$`: the source pattern
(obf.py line 572) is `^[a-zA-Z_].*\..+$`, without digits in the leading
character class, so a key such as `9a.b` — matched by the claimed
pattern — fires no default rule at all. -/
theorem C8_counterexample :
    ("^[a-zA-Z0-9_].*\\..+$" ∉ default_conventions.map Prod.fst)
    ∧ specUnitsMatcher "9a.b" = true
    ∧ unitsHot "9a.b" = false
    ∧ find_rule default_conventions "9a.b" = none := by
  refine ⟨by decide, rfl, rfl, rfl⟩

theorem splitDotNonempty_spec :
    ∀ (l a b : List Char), splitDotNonempty l = some (a, b) →
      l = a ++ '.' :: b ∧ '.' ∉ a ∧ b ≠ [] := by
  intro l
  induction l with
  | nil => intro a b h; cases h
  | cons c t ih =>
    intro a b h
    rw [splitDotNonempty] at h
    by_cases hc : c = '.'
    · rw [if_pos hc] at h
      by_cases ht : t = []
      · rw [if_pos ht] at h; cases h
      · rw [if_neg ht] at h
        cases h
        subst hc
        exact ⟨rfl, by simp, ht⟩
    · rw [if_neg hc] at h
      cases hs : splitDotNonempty t with
      | none => rw [hs] at h; cases h
      | some p =>
        rw [hs, Option.map_some'] at h
        cases h
        obtain ⟨h1, h2, h3⟩ := ih p.1 p.2 (by rw [hs])
        refine ⟨by rw [List.cons_append, ← h1], ?_, h3⟩
        intro hm
        rcases List.mem_cons.mp hm with hm1 | hm2
        · exact hc hm1.symm
        · exact h2 hm2

theorem labelDotUnits_spec (key nk u : String)
    (h : labelDotUnits key = some (nk, u)) :
    key.toList = nk.toList ++ '.' :: u.toList := by
  cases hk : key.toList with
  | nil =>
    unfold String.toList at hk
    simp [labelDotUnits, String.toList, hk] at h
  | cons c t =>
    unfold String.toList at hk
    simp only [labelDotUnits, String.toList, hk] at h
    by_cases hc : isAlphaUnd c = true
    · rw [if_pos hc] at h
      cases hs : splitDotNonempty t with
      | none => rw [hs] at h; cases h
      | some p =>
        rw [hs, Option.map_some'] at h
        cases h
        obtain ⟨h1, _, _⟩ := splitDotNonempty_spec t p.1 p.2 hs
        subst h1
        simp [String.toList]
    · rw [if_neg hc] at h; cases h

theorem toList_injective (a b : String) (h : a.toList = b.toList) : a = b := by
  cases a; cases b
  exact congrArg String.mk h

/-- C8, amended.  The default rule set carries the units matcher
`^[a-zA-Z_].*\..+$` (leading letter or underscore only); its action
renames the key to the part before the first `.`, relocates the value
there, adds the sibling `<name>.units` (lower-cased exactly when the
suffix is in the vocabulary), removes the original key, and does nothing
when the suffix lower-cases to `units`. -/
theorem C8_default_units_rule :
    ("^[a-zA-Z_].*\\..+$", RuleId.unitsRe) ∈ default_conventions
    ∧ (∀ (m : List (String × Node)) (key nk u : String) (v : Node)
        (voc : List String),
        labelDotUnits key = some (nk, u) → lowerStr u ≠ "units" →
        lookupA m key = some v → (keysOf m).Nodup →
        lookupA (process_units m key voc).1 nk = some v
        ∧ lookupA (process_units m key voc).1 (nk ++ ".units") =
            some (.str (if lowerStr u ∈ voc then lowerStr u else u))
        ∧ lookupA (process_units m key voc).1 key = none
        ∧ (process_units m key voc).2.1 = []
        ∧ (process_units m key voc).2.2 = some nk)
    ∧ (∀ (m : List (String × Node)) (key nk u : String) (voc : List String),
        labelDotUnits key = some (nk, u) → lowerStr u = "units" →
        process_units m key voc = (m, [], none)) := by
  refine ⟨by decide, ?_, ?_⟩
  · intro m key nk u v voc h1 h2 h3 h4
    have hspec := labelDotUnits_spec key nk u h1
    have hkeynk : key ≠ nk := by
      intro hh
      rw [hh] at hspec
      have : nk.toList.length = nk.toList.length + (1 + u.toList.length) := by
        conv_lhs => rw [hspec]
        simp [Nat.add_comm]
      omega
    have hnkunits : nk ≠ nk ++ ".units" := by
      intro hh
      have : nk.toList.length = nk.toList.length + 6 := by
        conv_lhs => rw [hh]
        simp [String.toList]
      omega
    have hkeyunits : key ≠ nk ++ ".units" := by
      intro hh
      have h5 : nk.toList ++ '.' :: u.toList = nk.toList ++ '.' :: "units".toList := by
        rw [← hspec, hh]
        simp [String.toList]
      have h6 : u = "units" := toList_injective _ _ (by simpa using h5)
      rw [h6] at h2
      exact h2 rfl
    simp only [process_units, h1, h3, if_neg h2]
    refine ⟨?_, ?_, ?_, trivial, trivial⟩
    · rw [lookupA_eraseA_ne _ _ _ (fun hh => hkeynk hh.symm),
        lookupA_updateA_ne _ _ _ _ hnkunits, lookupA_updateA_self]
    · rw [lookupA_eraseA_ne _ _ _ (fun hh => hkeyunits hh.symm),
        lookupA_updateA_self]
    · exact lookupA_eraseA_self _ _
        (nodup_keysOf_updateA _ _ _ (nodup_keysOf_updateA _ _ _ h4))
  · intro m key nk u voc h1 h2
    simp only [process_units, h1, if_pos h2]

/-- C8, witness for `C8_default_units_rule` at `rt.MS` (vocabulary unit,
lower-cased) and `x.units` (suffix literally `units`, skipped). -/
theorem C8_default_units_rule_witness :
    (lookupA (process_units [("rt.MS", .num 7)] "rt.MS" unitsVocab).1 "rt" =
        some (.num 7)
      ∧ lookupA (process_units [("rt.MS", .num 7)] "rt.MS" unitsVocab).1
          "rt.units" = some (.str (if lowerStr "MS" ∈ unitsVocab
            then lowerStr "MS" else "MS"))
      ∧ lookupA (process_units [("rt.MS", .num 7)] "rt.MS" unitsVocab).1
          "rt.MS" = none
      ∧ (process_units [("rt.MS", .num 7)] "rt.MS" unitsVocab).2.1 = []
      ∧ (process_units [("rt.MS", .num 7)] "rt.MS" unitsVocab).2.2 = some "rt")
    ∧ process_units [("x.units", .num 1)] "x.units" unitsVocab =
        ([("x.units", .num 1)], [], none) := by
  constructor
  · exact C8_default_units_rule.2.1 [("rt.MS", .num 7)] "rt.MS" "rt" "MS"
      (.num 7) unitsVocab (by rfl) (by decide) (by rfl) (by decide)
  · exact C8_default_units_rule.2.2 [("x.units", .num 1)] "x.units" "x" "units"
      unitsVocab (by rfl) (by rfl)

/-! ### Navigation helper lemmas -/

theorem nodeAt_map_cons (m : List (String × Node)) (s : String) (r : List Tok) :
    nodeAt (.map m) (Tok.qs s :: r) =
      match lookupA m s with
      | some c => nodeAt c r
      | none => none := rfl

theorem nodeAt_seq_cons (l : List Node) (i : Nat) (r : List Tok) :
    nodeAt (.seq l) (Tok.qi i :: r) =
      match l.get? i with
      | some c => nodeAt c r
      | none => none := rfl

theorem nodeAt_updateA (m : List (String × Node)) (s : String) (X : Node)
    (r : List Tok) :
    nodeAt (.map (updateA m s X)) (Tok.qs s :: r) = nodeAt X r := by
  rw [nodeAt_map_cons, lookupA_updateA_self]

theorem nodeAt_seq_set (l : List Node) (i : Nat) (X : Node) (r : List Tok)
    (h : i < l.length) :
    nodeAt (.seq (l.set i X)) (Tok.qi i :: r) = nodeAt X r := by
  rw [nodeAt_seq_cons, get?_set_self _ _ _ h]

theorem stepsAcc_cons (n : String) (ix : Index) (rest : List Step) :
    stepsAcc ((n, ix) :: rest) = Tok.qs n :: accOf ix :: stepsAcc rest := by
  simp [stepsAcc]

/-- Placing steps through entirely fresh dimensions (no cache entry below
the current path) always succeeds — whatever the index-0 base setting, as
long as reading it cannot raise — and leaves the datum at the steps'
accessor path. -/
theorem add_datum_fresh (bi : Option Nat) (datum : Node) (key : String) :
    ∀ (steps : List Step) (m : List (String × Node)) (p : List Tok)
      (cache : List (List Tok)) (rep : List String),
      (∀ st ∈ steps, st.2 = Index.ord 0 → bi ≠ none) →
      (∀ q ∈ cache, ∀ r : List Tok, r ≠ [] → q ≠ p ++ r) →
      ∃ t' c' r',
        _add_datum_loop bi datum key steps (.map m) p cache rep =
          .ok (t', c', r')
        ∧ nodeAt t' (stepsAcc steps) = some datum := by
  intro steps
  induction steps with
  | nil =>
    intro m p cache rep _ _
    exact ⟨datum, cache, rep, rfl, by simp [stepsAcc, nodeAt]⟩
  | cons s rest ih =>
    obtain ⟨name, ix⟩ := s
    intro m p cache rep hg hni
    have hp1 : (p ++ [Tok.qs name]) ∉ cache := fun hin =>
      hni _ hin [Tok.qs name] (by simp) rfl
    have hni' : ∀ q ∈ (p ++ [Tok.qs name]) :: cache,
        ∀ r : List Tok, r ≠ [] →
        q ≠ (p ++ [Tok.qs name] ++ [accOf ix]) ++ r := by
      intro q hq r hr
      rcases List.mem_cons.mp hq with hq1 | hq2
      · intro hh
        subst hq1
        have := congrArg List.length hh
        simp at this
      · intro hh
        refine hni q hq2 ([Tok.qs name] ++ [accOf ix] ++ r) (by simp) ?_
        rw [hh]
        simp
    have hg' : ∀ st ∈ rest, st.2 = Index.ord 0 → bi ≠ none :=
      fun st hst => hg st (List.mem_cons_of_mem _ hst)
    cases ix with
    | lab lb =>
      obtain ⟨t', c', r', heq, hnode⟩ :=
        ih [] (p ++ [Tok.qs name] ++ [Tok.qs lb])
          ((p ++ [Tok.qs name]) :: cache) rep hg' hni'
      refine ⟨.map (updateA m name (.map [(lb, t')])), c', r', ?_, ?_⟩
      · simp only [_add_datum_loop]
        rw [if_neg (by simp : ¬(Index.lab lb = Index.ord 0))]
        simp only [_add_datum_body, if_neg hp1]
        rw [heq]
      · rw [stepsAcc_cons, nodeAt_updateA]
        show nodeAt (.map [(lb, t')]) (Tok.qs lb :: stepsAcc rest) = some datum
        rw [nodeAt_map_cons]
        simp only [lookupA, if_pos rfl]
        exact hnode
    | ord i =>
      have hlt : i < ((List.replicate (i + 1) Node.absent)).length := by simp
      cases i with
      | zero =>
        cases bi with
        | none =>
          exact absurd rfl (hg (name, Index.ord 0) (List.mem_cons_self _ _) rfl)
        | some b =>
          obtain ⟨t', c', r', heq, hnode⟩ :=
            ih [] (p ++ [Tok.qs name] ++ [Tok.qi 0])
              ((p ++ [Tok.qs name]) :: cache)
              (if b = 1 then rep ++
                ["OBF: WARNING: one_indexed requested, but index 0 received"]
               else rep) hg' hni'
          refine ⟨.map (updateA m name
            (.seq ((List.replicate 1 Node.absent).set 0 t'))), c', r', ?_, ?_⟩
          · simp only [_add_datum_loop]
            rw [if_pos trivial]
            simp only [_add_datum_body, if_neg hp1]
            rw [heq]
          · rw [stepsAcc_cons, nodeAt_updateA]
            exact (nodeAt_seq_set _ _ _ _ (by simp)).trans hnode
      | succ j =>
        obtain ⟨t', c', r', heq, hnode⟩ :=
          ih [] (p ++ [Tok.qs name] ++ [Tok.qi (j + 1)])
            ((p ++ [Tok.qs name]) :: cache) rep hg' hni'
        refine ⟨.map (updateA m name
          (.seq ((List.replicate (j + 2) Node.absent).set (j + 1) t'))),
          c', r', ?_, ?_⟩
        · simp only [_add_datum_loop]
          rw [if_neg (by simp : ¬(Index.ord (j + 1) = Index.ord 0))]
          simp only [_add_datum_body, if_neg hp1]
          rw [heq]
        · rw [stepsAcc_cons, nodeAt_updateA]
          exact (nodeAt_seq_set _ _ _ _ (by simp)).trans hnode

/-! ### C1 -/

/-- The 26-segment reference key of the shipped example file
(obf.py line 712), all indices 0. -/
def k26 : String :=
  "l0.0+l1.0+l2.0+l3.0+l4.0+l5.0+l6.0+l7.0+l8.0+l9.0+l10.0+l11.0+l12.0+" ++
  "l13.0+l14.0+l15.0+l16.0+l17.0+l18.0+l19.0+l20.0+l21.0+l22.0+l23.0+" ++
  "l24.0+l25.0"

def steps26 : List Step :=
  (List.range 26).map (fun i => ("l" ++ toString i, Index.ord 0))

def st26 : St := ⟨[(k26, .str "v")], [], [], some 1⟩

/-- C1.  One placement of an n-segment compound key into a fresh tree
builds an n-level nested structure with the value at the innermost
position — for *every* step list (so at any depth, with no hard limit),
and concretely for the 26-segment all-zero-index fixture key fed through
the key compiler (`base_index = 1`, so each index 0 only adds warnings). -/
theorem C1_deep_placement :
    (∀ (steps : List Step) (b : Nat) (v : String),
      ∃ t' c' r',
        _add_datum_loop (some b) (.str v) "k" steps (.map []) [] [] [] =
          .ok (t', c', r')
        ∧ nodeAt t' (stepsAcc steps) = some (.str v))
    ∧ (∃ st', parse_one_key k26 st26 = .ok st'
        ∧ nodeAt (.map st'.data) (stepsAcc steps26) = some (.str "v")
        ∧ lookupA st'.data k26 = none) := by
  constructor
  · intro steps b v
    exact add_datum_fresh (some b) (.str v) "k" steps [] [] [] []
      (fun st hst h => by simp) (by simp)
  · exact ⟨_, rfl, by rfl, by rfl⟩

/-! ### C10 -/

/-- With `base_index` never assigned, any placement whose steps contain an
Ordinal 0 reaches `index == 0 and self.base_index == 1` with the attribute
missing and raises `AttributeError` (fresh-cache runs: earlier steps all
take the new-dimension branch and cannot fail first). -/
theorem add_datum_ord0_attr (v key : String) :
    ∀ (steps : List Step) (m : List (String × Node)) (p : List Tok)
      (cache : List (List Tok)) (rep : List String),
      (∀ q ∈ cache, ∀ r : List Tok, r ≠ [] → q ≠ p ++ r) →
      (∃ st ∈ steps, st.2 = Index.ord 0) →
      _add_datum_loop none (.str v) key steps (.map m) p cache rep =
        .error .attrError := by
  intro steps
  induction steps with
  | nil =>
    intro m p cache rep _ hex
    obtain ⟨st, hst, _⟩ := hex
    exact absurd hst (List.not_mem_nil st)
  | cons s rest ih =>
    obtain ⟨name, ix⟩ := s
    intro m p cache rep hni hex
    have hp1 : (p ++ [Tok.qs name]) ∉ cache := fun hin =>
      hni _ hin [Tok.qs name] (by simp) rfl
    have hni' : ∀ q ∈ (p ++ [Tok.qs name]) :: cache,
        ∀ r : List Tok, r ≠ [] →
        q ≠ (p ++ [Tok.qs name] ++ [accOf ix]) ++ r := by
      intro q hq r hr
      rcases List.mem_cons.mp hq with hq1 | hq2
      · intro hh
        subst hq1
        have := congrArg List.length hh
        simp at this
      · intro hh
        refine hni q hq2 ([Tok.qs name] ++ [accOf ix] ++ r) (by simp) ?_
        rw [hh]
        simp
    cases ix with
    | lab lb =>
      have hex' : ∃ st ∈ rest, st.2 = Index.ord 0 := by
        obtain ⟨st, hst, hst0⟩ := hex
        rcases List.mem_cons.mp hst with h1 | h2
        · cases h1 ▸ hst0
        · exact ⟨st, h2, hst0⟩
      simp only [_add_datum_loop]
      rw [if_neg (by simp : ¬(Index.lab lb = Index.ord 0))]
      simp only [_add_datum_body, if_neg hp1]
      rw [ih [] (p ++ [Tok.qs name] ++ [Tok.qs lb])
        ((p ++ [Tok.qs name]) :: cache) rep hni' hex']
    | ord i =>
      cases i with
      | zero => rfl
      | succ j =>
        have hex' : ∃ st ∈ rest, st.2 = Index.ord 0 := by
          obtain ⟨st, hst, hst0⟩ := hex
          rcases List.mem_cons.mp hst with h1 | h2
          · rw [h1] at hst0
            cases hst0
          · exact ⟨st, h2, hst0⟩
        simp only [_add_datum_loop]
        rw [if_neg (by simp : ¬(Index.ord (j + 1) = Index.ord 0))]
        simp only [_add_datum_body, if_neg hp1]
        rw [ih [] (p ++ [Tok.qs name] ++ [Tok.qi (j + 1)])
          ((p ++ [Tok.qs name]) :: cache) rep hni' hex']

/-- C10.  `self.base_index` is assigned only under `if len(prepro) > 0:`
(obf.py lines 247-253).  In a run with no preprocessing directives the
setting stays undefined: placing any key with an Ordinal-0 step then dies
with `AttributeError` at the `index == 0 and self.base_index == 1` test
(obf.py line 392) instead of recording the warning, while keys with only
nonzero Ordinal or Label indices place fine, because `index == 0`
short-circuits the attribute read. -/
theorem C10_base_index_unset :
    base_index_of [] = none
    ∧ (∀ (d : String) (pre : List String), base_index_of (d :: pre) ≠ none)
    ∧ (∀ (steps : List Step) (v key : String) (m : List (String × Node)),
        (∃ st ∈ steps, st.2 = Index.ord 0) →
        _add_datum_loop none (.str v) key steps (.map m) [] [] [] =
          .error .attrError)
    ∧ (∀ (steps : List Step) (v key : String),
        (∀ st ∈ steps, st.2 ≠ Index.ord 0) →
        ∃ t' c' r',
          _add_datum_loop none (.str v) key steps (.map []) [] [] [] =
            .ok (t', c', r')
          ∧ nodeAt t' (stepsAcc steps) = some (.str v)) := by
  refine ⟨rfl, ?_, ?_, ?_⟩
  · intro d pre
    simp [base_index_of]
  · intro steps v key m hex
    exact add_datum_ord0_attr v key steps m [] [] [] (by simp) hex
  · intro steps v key hz
    exact add_datum_fresh none (.str v) key steps [] [] [] []
      (fun st hst h0 => absurd h0 (hz st hst)) (by simp)

/-- C10, witness: a directive list makes the setting defined; with no
directives, `a.1+b.0` (Ordinal 0 behind a nonzero step) raises
`AttributeError`, while `a.2+b.x` (nonzero Ordinal and Label only)
places successfully. -/
theorem C10_base_index_unset_witness :
    base_index_of ["strict"] ≠ none
    ∧ _add_datum_loop none (.str "v") "k"
        [("a", .ord 1), ("b", .ord 0)] (.map []) [] [] [] =
        .error .attrError
    ∧ ∃ t' c' r',
        _add_datum_loop none (.str "v") "k"
          [("a", .ord 2), ("b", .lab "x")] (.map []) [] [] [] =
          .ok (t', c', r')
        ∧ nodeAt t' (stepsAcc [("a", .ord 2), ("b", .lab "x")]) =
            some (.str "v") :=
  ⟨C10_base_index_unset.2.1 "strict" [],
   C10_base_index_unset.2.2.1 [("a", .ord 1), ("b", .ord 0)] "v" "k" []
     ⟨("b", .ord 0), by simp, rfl⟩,
   C10_base_index_unset.2.2.2 [("a", .ord 2), ("b", .lab "x")] "v" "k"
     (by intro st hst; rcases List.mem_cons.mp hst with h | h <;>
        simp_all)⟩

/-! ### C9 -/

/-- A key is "already normalized" for the default conventions: the
`_N_` digit rule does not fire on it, and if the units rule fires then
its action is a no-op (the captured suffix lower-cases to `units`, or the
capture fails and only a warning is emitted). -/
def keyNormal (k : String) : Bool :=
  !(rule_match "^_\\d+_$" k) &&
  (!(rule_match "^[a-zA-Z_].*\\..+$" k) ||
    (match labelDotUnits k with
     | some (_, u) => lowerStr u == "units"
     | none => true))

mutual
/-- An already-normalized tree: no `_N_`-shaped and no rewriteable
`name.suffix`-shaped key anywhere in it. -/
def normalizedN : Node → Bool
  | .str _ => true
  | .num _ => true
  | .absent => true
  | .seq l => normalizedL l
  | .map m => normalizedM m

def normalizedL : List Node → Bool
  | [] => true
  | x :: xs => normalizedN x && normalizedL xs

def normalizedM : List (String × Node) → Bool
  | [] => true
  | (k, v) :: t => keyNormal k && normalizedN v && normalizedM t
end

theorem normalizedM_lookup (m : List (String × Node)) (k : String) (v : Node)
    (hm : normalizedM m = true) (hl : lookupA m k = some v) :
    normalizedN v = true := by
  induction m with
  | nil => cases hl
  | cons hd t ih =>
    obtain ⟨k1, v1⟩ := hd
    rw [normalizedM, Bool.and_eq_true, Bool.and_eq_true] at hm
    rw [lookupA] at hl
    by_cases hk : k1 = k
    · rw [if_pos hk] at hl
      cases hl
      exact hm.1.2
    · rw [if_neg hk] at hl
      exact ih hm.2 hl

theorem normalizedM_keys (m : List (String × Node))
    (hm : normalizedM m = true) : ∀ k ∈ keysOf m, keyNormal k = true := by
  induction m with
  | nil => intro k hk; cases hk
  | cons hd t ih =>
    obtain ⟨k1, v1⟩ := hd
    rw [normalizedM, Bool.and_eq_true, Bool.and_eq_true] at hm
    intro k hk
    rcases List.mem_cons.mp hk with h1 | h2
    · exact h1 ▸ hm.1.1
    · exact ih hm.2 k h2

theorem updateA_lookup_self_id (m : List (String × Node)) (k : String)
    (v : Node) (hl : lookupA m k = some v) : updateA m k v = m := by
  induction m with
  | nil => cases hl
  | cons hd t ih =>
    rw [lookupA] at hl
    by_cases hk : hd.1 = k
    · rw [if_pos hk] at hl
      cases hl
      rw [updateA, if_pos hk]
    · rw [if_neg hk] at hl
      rw [updateA, if_neg hk, ih hl]

/-- On a normalized key, whichever default rule fires leaves the dict
unchanged and requests no rename. -/
theorem normal_key_action (m : List (String × Node)) (voc : List String)
    (k : String) (hk : keyNormal k = true) :
    ∃ adds, (match find_rule default_conventions k with
      | some rid => apply_rule rid m k voc
      | none => (m, [], none)) = (m, adds, (none : Option String)) := by
  rw [keyNormal, Bool.and_eq_true, Bool.not_eq_true'] at hk
  obtain ⟨hk1, hk2⟩ := hk
  simp only [find_rule, default_conventions]
  by_cases h1 : rule_match "random_seed" k = true
  · simp only [h1, if_pos]
    exact ⟨screen_random_seed m k, rfl⟩
  · rw [if_neg h1]
    by_cases h2 : rule_match "mouse" k = true
    · simp only [h2, if_pos]
      exact ⟨screen_mouse m k, rfl⟩
    · rw [if_neg h2, if_neg (by simp [hk1])]
      by_cases h4 : rule_match "^[a-zA-Z_].*\\..+$" k = true
      · rw [if_pos h4]
        rw [Bool.or_eq_true, Bool.not_eq_true'] at hk2
        rcases hk2 with hk2 | hk2
        · rw [h4] at hk2
          cases hk2
        · show ∃ adds, process_units m k voc = (m, adds, none)
          cases hldu : labelDotUnits k with
          | none =>
            simp only [process_units, hldu]
            exact ⟨_, rfl⟩
          | some p =>
            obtain ⟨nk, u⟩ := p
            rw [hldu] at hk2
            have hu : lowerStr u = "units" := by
              simpa using hk2
            simp only [process_units, hldu, if_pos hu]
            exact ⟨[], rfl⟩
      · rw [if_neg h4]
        exact ⟨[], rfl⟩

theorem walk_normal_preserve (voc : List String) :
    ∀ f : Nat,
      (∀ t rep t' rep', normalizedN t = true →
        walkNode default_conventions voc f t rep = some (t', rep') → t' = t)
      ∧ (∀ l rep l' rep', normalizedL l = true →
        walkSeq default_conventions voc f l rep = some (l', rep') → l' = l)
      ∧ (∀ ks m rep m' rep', (∀ k ∈ ks, keyNormal k = true) →
        normalizedM m = true →
        walkGo default_conventions voc f ks m rep = some (m', rep') → m' = m) := by
  intro f
  induction f with
  | zero =>
    refine ⟨?_, ?_, ?_⟩
    · intro t rep t' rep' _ h
      simp [walkNode] at h
    · intro l rep l' rep' _ h
      simp [walkSeq] at h
    · intro ks m rep m' rep' _ _ h
      simp [walkGo] at h
  | succ f ih =>
    obtain ⟨ihN, ihS, ihG⟩ := ih
    refine ⟨?_, ?_, ?_⟩
    · intro t rep t' rep' hn hw
      cases t with
      | str s => simp [walkNode] at hw
      | num n => simp [walkNode] at hw
      | absent => simp [walkNode] at hw
      | seq l =>
        rw [normalizedN] at hn
        simp only [walkNode] at hw
        cases hws : walkSeq default_conventions voc f l rep with
        | none => simp only [hws] at hw; cases hw
        | some pr =>
          obtain ⟨l2, rep2⟩ := pr
          simp only [hws] at hw
          cases hw
          rw [ihS l rep l2 _ hn hws]
      | map m =>
        rw [normalizedN] at hn
        simp only [walkNode] at hw
        cases hws : walkGo default_conventions voc f (keysOf m) m rep with
        | none => simp only [hws] at hw; cases hw
        | some pr =>
          obtain ⟨m2, rep2⟩ := pr
          simp only [hws] at hw
          cases hw
          rw [ihG (keysOf m) m rep m2 _ (normalizedM_keys m hn) hn hws]
    · intro l rep l' rep' hn hw
      cases l with
      | nil =>
        rw [walkSeq] at hw
        cases hw
        rfl
      | cons x xs =>
        rw [normalizedL, Bool.and_eq_true] at hn
        simp only [walkSeq] at hw
        cases x with
        | seq li =>
          cases hwn : walkNode default_conventions voc f (.seq li) rep with
          | none => simp only [hwn] at hw; cases hw
          | some pr =>
            obtain ⟨x2, rep2⟩ := pr
            simp only [hwn] at hw
            cases hws : walkSeq default_conventions voc f xs rep2 with
            | none => simp only [hws] at hw; cases hw
            | some pr2 =>
              obtain ⟨xs2, rep3⟩ := pr2
              simp only [hws] at hw
              cases hw
              rw [ihN _ _ _ _ hn.1 hwn, ihS _ _ _ _ hn.2 hws]
        | map mi =>
          cases hwn : walkNode default_conventions voc f (.map mi) rep with
          | none => simp only [hwn] at hw; cases hw
          | some pr =>
            obtain ⟨x2, rep2⟩ := pr
            simp only [hwn] at hw
            cases hws : walkSeq default_conventions voc f xs rep2 with
            | none => simp only [hws] at hw; cases hw
            | some pr2 =>
              obtain ⟨xs2, rep3⟩ := pr2
              simp only [hws] at hw
              cases hw
              rw [ihN _ _ _ _ hn.1 hwn, ihS _ _ _ _ hn.2 hws]
        | str s =>
          cases hws : walkSeq default_conventions voc f xs rep with
          | none => simp only [hws] at hw; cases hw
          | some pr2 =>
            obtain ⟨xs2, rep3⟩ := pr2
            simp only [hws] at hw
            cases hw
            rw [ihS _ _ _ _ hn.2 hws]
        | num n =>
          cases hws : walkSeq default_conventions voc f xs rep with
          | none => simp only [hws] at hw; cases hw
          | some pr2 =>
            obtain ⟨xs2, rep3⟩ := pr2
            simp only [hws] at hw
            cases hw
            rw [ihS _ _ _ _ hn.2 hws]
        | absent =>
          cases hws : walkSeq default_conventions voc f xs rep with
          | none => simp only [hws] at hw; cases hw
          | some pr2 =>
            obtain ⟨xs2, rep3⟩ := pr2
            simp only [hws] at hw
            cases hw
            rw [ihS _ _ _ _ hn.2 hws]
    · intro ks m rep m' rep' hks hm hw
      cases ks with
      | nil =>
        rw [walkGo] at hw
        cases hw
        rfl
      | cons k t =>
        obtain ⟨adds, hres⟩ :=
          normal_key_action m voc k (hks k (List.mem_cons_self k t))
        have hks' : ∀ k2 ∈ t, keyNormal k2 = true :=
          fun k2 h2 => hks k2 (List.mem_cons_of_mem _ h2)
        cases hlk : lookupA m k with
        | none => simp [walkGo, hres, hlk] at hw
        | some v =>
          simp only [walkGo, hres, hlk] at hw
          have hnv := normalizedM_lookup m k v hm hlk
          cases v with
          | seq li =>
            cases hwn : walkNode default_conventions voc f (.seq li) (rep ++ adds) with
            | none => simp only [hwn] at hw; cases hw
            | some pr =>
              obtain ⟨v2, rep2⟩ := pr
              simp only [hwn] at hw
              rw [ihN _ _ _ _ hnv hwn] at hw
              rw [updateA_lookup_self_id m k _ hlk] at hw
              exact ihG t m rep2 m' rep' hks' hm hw
          | map mi =>
            cases hwn : walkNode default_conventions voc f (.map mi) (rep ++ adds) with
            | none => simp only [hwn] at hw; cases hw
            | some pr =>
              obtain ⟨v2, rep2⟩ := pr
              simp only [hwn] at hw
              rw [ihN _ _ _ _ hnv hwn] at hw
              rw [updateA_lookup_self_id m k _ hlk] at hw
              exact ihG t m rep2 m' rep' hks' hm hw
          | str s => exact ihG t m (rep ++ adds) m' rep' hks' hm hw
          | num n => exact ihG t m (rep ++ adds) m' rep' hks' hm hw
          | absent => exact ihG t m (rep ++ adds) m' rep' hks' hm hw

/-- C9.  Over an already-normalized tree (no `_N_`-shaped key and no
rewriteable `name.suffix`-shaped key anywhere; `name.units` siblings are
fine since their action is a no-op) the default Convention Engine leaves
the tree unchanged, so a second run is a verbatim replay of the first:
identical tree and the identical appended diagnostics list — the
deduplicated diagnostics set (`self.report = list(set(...))`) gains
nothing. -/
theorem C9_default_walk_idempotent (f : Nat) (voc : List String)
    (m : List (String × Node)) (t1 : Node) (d : List String)
    (hn : normalizedN (.map m) = true)
    (hw : walkNode default_conventions voc f (.map m) [] = some (t1, d)) :
    t1 = .map m ∧ walkNode default_conventions voc f t1 [] = some (t1, d) := by
  have h1 := (walk_normal_preserve voc f).1 (.map m) [] t1 d hn hw
  subst h1
  exact ⟨rfl, hw⟩

/-- A normalized tree with nesting, a `name.units` sibling, and a
`random_seed` whose value warns on every walk (but never mutates). -/
def t9 : List (String × Node) :=
  [("trial", .seq [.absent, .map [("rt", .num 3), ("rt.units", .str "ms")]]),
   ("random_seed", .str "None")]

/-- C9, witness: both runs return the same tree and the same one-warning
diagnostics list. -/
theorem C9_default_walk_idempotent_witness :
    Node.map t9 = .map t9
    ∧ walkNode default_conventions unitsVocab 20 (.map t9) [] =
        some (.map t9, ["OBF: WARNING: ambiguous random_seed None"]) :=
  C9_default_walk_idempotent 20 unitsVocab t9 (.map t9)
    ["OBF: WARNING: ambiguous random_seed None"] (by rfl) (by rfl)

/-! ### C3: infrastructure -/

/-- `a` is a prefix of `b` (on accessor-token lists). -/
def accPfx : List Tok → List Tok → Bool
  | [], _ => true
  | _ :: _, [] => false
  | a :: as, b :: bs => if a = b then accPfx as bs else false

theorem accPfx_append_self (a t : List Tok) : accPfx a (a ++ t) = true := by
  induction a with
  | nil => rfl
  | cons x as ih => simpa [accPfx] using ih

theorem accPfx_cons_cons (a b : Tok) (as bs : List Tok) :
    accPfx (a :: as) (b :: bs) = true ↔ a = b ∧ accPfx as bs = true := by
  by_cases h : a = b
  · simp [accPfx, h]
  · simp [accPfx, h]

theorem accPfx_nil_left (b : List Tok) : accPfx [] b = true := rfl

theorem accPfx_cons_nil (a : Tok) (as : List Tok) :
    accPfx (a :: as) [] = false := rfl

theorem accPfx_exists (a b : List Tok) (h : accPfx a b = true) :
    ∃ t, b = a ++ t := by
  induction a generalizing b with
  | nil => exact ⟨b, rfl⟩
  | cons x as ih =>
    cases b with
    | nil => cases h
    | cons y bs =>
      obtain ⟨hxy, h2⟩ := (accPfx_cons_cons x y as bs).mp h
      obtain ⟨t, ht⟩ := ih bs h2
      exact ⟨t, by rw [ht, hxy, List.cons_append]⟩

theorem accPfx_append_left (q r b : List Tok) (h : accPfx (q ++ r) b = true) :
    accPfx q b = true := by
  induction q generalizing b with
  | nil => rfl
  | cons x as ih =>
    cases b with
    | nil => cases h
    | cons y bs =>
      rw [List.cons_append] at h
      obtain ⟨hxy, h2⟩ := (accPfx_cons_cons x y (as ++ r) bs).mp h
      exact (accPfx_cons_cons x y as bs).mpr ⟨hxy, ih bs h2⟩

theorem accPfx_length (a b : List Tok) (h : accPfx a b = true) :
    a.length ≤ b.length := by
  obtain ⟨t, ht⟩ := accPfx_exists a b h
  subst ht
  simp

/-- Prior usage of the Ordinal index `i` at tree path `q` by any placement
of the history `H`: some placed key descends through position `i` of the
sequence at `q`. -/
def usedB (H : List (List Step × String)) (q : List Tok) (i : Nat) : Bool :=
  H.any (fun h => accPfx (q ++ [Tok.qi i]) (stepsAcc h.1))

/-- The sequence-shape invariant the claim states, relative to a usage
relation `U`: every sequence reachable in `t` is exactly one longer than
the largest index used at its path, and a position holds the Absence
marker exactly when it was never used. -/
def SeqInv (t : Node) (U : List Tok → Nat → Prop) : Prop :=
  ∀ q l, nodeAt t q = some (.seq l) →
    (∀ j, U q j → j < l.length)
    ∧ U q (l.length - 1)
    ∧ ∀ j, j < l.length → (l.get? j = some Node.absent ↔ ¬ U q j)

theorem SeqInv_congr (t : Node) (U U' : List Tok → Nat → Prop)
    (hiff : ∀ q j, U q j ↔ U' q j) (h : SeqInv t U) : SeqInv t U' := by
  intro q l hq
  obtain ⟨h1, h2, h3⟩ := h q l hq
  exact ⟨fun j hj => h1 j ((hiff q j).mpr hj), (hiff q (l.length - 1)).mp h2,
    fun j hjl => (h3 j hjl).trans (not_congr (hiff q j))⟩

theorem nodeAt_append (q1 q2 : List Tok) :
    ∀ t : Node, nodeAt t (q1 ++ q2) =
      match nodeAt t q1 with
      | some e => nodeAt e q2
      | none => none := by
  induction q1 with
  | nil => intro t; cases t <;> rfl
  | cons x q1 ih =>
    intro t
    cases t with
    | str s => cases x <;> rfl
    | num n => cases x <;> rfl
    | absent => cases x <;> rfl
    | seq l =>
      cases x with
      | qs s => rfl
      | qi i =>
        rw [List.cons_append, nodeAt_seq_cons, nodeAt_seq_cons]
        cases hl : l.get? i with
        | none => simp only [hl]
        | some c => simp only [hl]; exact ih c
    | map m =>
      cases x with
      | qi i => rfl
      | qs s =>
        rw [List.cons_append, nodeAt_map_cons, nodeAt_map_cons]
        cases hl : lookupA m s with
        | none => simp only [hl]
        | some c => simp only [hl]; exact ih c

/-- Restrict a tree invariant to the subtree one accessor below. -/
theorem SeqInv_at (t : Node) (U : List Tok → Nat → Prop) (h : SeqInv t U)
    (x : Tok) (e : Node) (he : nodeAt t [x] = some e) :
    SeqInv e (fun r j => U (x :: r) j) := by
  intro q l hq
  refine h (x :: q) l ?_
  have := nodeAt_append [x] q t
  rw [he] at this
  rw [show x :: q = [x] ++ q from rfl, this]
  simpa using hq

theorem SeqInv_scalar_str (s : String) (U : List Tok → Nat → Prop) :
    SeqInv (.str s) U := by
  intro q l hq
  cases q with
  | nil => cases hq
  | cons x r => cases x <;> cases hq

theorem SeqInv_scalar_num (n : Int) (U : List Tok → Nat → Prop) :
    SeqInv (.num n) U := by
  intro q l hq
  cases q with
  | nil => cases hq
  | cons x r => cases x <;> cases hq

theorem SeqInv_scalar_absent (U : List Tok → Nat → Prop) :
    SeqInv Node.absent U := by
  intro q l hq
  cases q with
  | nil => cases hq
  | cons x r => cases x <;> cases hq

/-- Assemble the invariant for a dict node from its entries. -/
theorem SeqInv_map (m : List (String × Node)) (U : List Tok → Nat → Prop)
    (helem : ∀ s e, lookupA m s = some e →
      SeqInv e (fun r j => U (Tok.qs s :: r) j)) :
    SeqInv (.map m) U := by
  intro q l hq
  cases q with
  | nil => cases hq
  | cons x r =>
    cases x with
    | qi i => cases hq
    | qs s =>
      rw [nodeAt_map_cons] at hq
      cases hl : lookupA m s with
      | none => rw [hl] at hq; cases hq
      | some e =>
        rw [hl] at hq
        exact helem s e hl r l hq

/-- Assemble the invariant for a list node from the root conditions and
its elements. -/
theorem SeqInv_seq (l3 : List Node) (U : List Tok → Nat → Prop)
    (hroot : (∀ j, U [] j → j < l3.length)
      ∧ U [] (l3.length - 1)
      ∧ ∀ j, j < l3.length → (l3.get? j = some Node.absent ↔ ¬ U [] j))
    (helem : ∀ t e, l3.get? t = some e →
      SeqInv e (fun r j => U (Tok.qi t :: r) j)) :
    SeqInv (.seq l3) U := by
  intro q l hq
  cases q with
  | nil =>
    cases hq
    exact hroot
  | cons x r =>
    cases x with
    | qs s => cases hq
    | qi t =>
      rw [nodeAt_seq_cons] at hq
      cases hl : l3.get? t with
      | none => rw [hl] at hq; cases hq
      | some e =>
        rw [hl] at hq
        exact helem t e hl r l hq

theorem nodeAt_map_update_other (m : List (String × Node)) (name s : String)
    (X : Node) (r : List Tok) (hs : s ≠ name) :
    nodeAt (.map (updateA m name X)) (Tok.qs s :: r) =
      nodeAt (.map m) (Tok.qs s :: r) := by
  rw [nodeAt_map_cons, nodeAt_map_cons, lookupA_updateA_ne m name s X hs]

theorem lookupA_append_single_self (m : List (String × Node)) (s : String)
    (x : Node) (h : lookupA m s = none) :
    lookupA (m ++ [(s, x)]) s = some x := by
  induction m with
  | nil => simp [lookupA]
  | cons hd t ih =>
    rw [lookupA] at h
    by_cases hk : hd.1 = s
    · rw [if_pos hk] at h; cases h
    · rw [if_neg hk] at h
      rw [List.cons_append, lookupA, if_neg hk]
      exact ih h

theorem lookupA_append_single_ne (m : List (String × Node)) (s s' : String)
    (x : Node) (h : s' ≠ s) :
    lookupA (m ++ [(s, x)]) s' = lookupA m s' := by
  induction m with
  | nil =>
    have : ¬ s = s' := fun hh => h hh.symm
    simp [lookupA, this]
  | cons hd t ih =>
    rw [List.cons_append, lookupA, lookupA]
    by_cases hk : hd.1 = s'
    · rw [if_pos hk, if_pos hk]
    · rw [if_neg hk, if_neg hk, ih]

/-- Peel the index-0 gate off a successful loop iteration: the body ran
with some (possibly warning-extended) report. -/
theorem loop_cons_ok (bi : Option Nat) (datum : Node) (key name : String)
    (ix : Index) (rest : List Step) (cur : Node) (p : List Tok)
    (cache : List (List Tok)) (rep : List String)
    (out : Node × List (List Tok) × List String)
    (h : _add_datum_loop bi datum key ((name, ix) :: rest) cur p cache rep =
      .ok out) :
    ∃ rep1, _add_datum_body
      (fun elem pth cch rp => _add_datum_loop bi datum key rest elem pth cch rp)
      key name ix cur p cache rep1 = .ok out := by
  simp only [_add_datum_loop] at h
  by_cases hz : ix = Index.ord 0
  · rw [if_pos hz] at h
    cases bi with
    | none => simp at h
    | some b => exact ⟨_, h⟩
  · rw [if_neg hz] at h
    exact ⟨rep, h⟩

theorem place_shape (bi : Option Nat) (v : String) (key : String)
    (steps : List Step) (cur : Node) (p : List Tok)
    (cache : List (List Tok)) (rep : List String)
    (t' : Node) (c' : List (List Tok)) (r' : List String)
    (h : _add_datum_loop bi (.str v) key steps cur p cache rep =
      .ok (t', c', r')) :
    (steps = [] ∧ t' = .str v) ∨ (∃ mm, t' = .map mm) := by
  cases steps with
  | nil =>
    rw [_add_datum_loop] at h
    cases h
    exact .inl ⟨rfl, rfl⟩
  | cons s rest =>
    obtain ⟨name, ix⟩ := s
    right
    obtain ⟨rep1, h⟩ := loop_cons_ok bi (.str v) key name ix rest cur p cache
      rep (t', c', r') h
    simp only [_add_datum_body] at h
    repeat' split at h
    all_goals cases h
    all_goals exact ⟨_, rfl⟩

theorem accPfx_head_ne (x y : Tok) (as bs : List Tok) (h : x ≠ y) :
    accPfx (x :: as) (y :: bs) = false := by
  simp [accPfx, h]

theorem nodeAt_nil (t : Node) : nodeAt t [] = some t := by
  cases t <;> rfl

theorem SeqInv_map_nil (U : List Tok → Nat → Prop) : SeqInv (.map []) U :=
  SeqInv_map [] U (fun s e hl => by cases hl)

/-- Rebuild-step assembler: updating one dict entry preserves the
invariant when the untouched entries keep their usage relation and the
new child satisfies its restriction. -/
theorem SeqInv_map_update (m : List (String × Node)) (name : String)
    (X : Node) (U U' : List Tok → Nat → Prop)
    (hold : SeqInv (.map m) U)
    (hagree : ∀ s r j, s ≠ name → (U' (Tok.qs s :: r) j ↔ U (Tok.qs s :: r) j))
    (hX : SeqInv X (fun r j => U' (Tok.qs name :: r) j)) :
    SeqInv (.map (updateA m name X)) U' := by
  apply SeqInv_map
  intro s e hl
  by_cases hs : s = name
  · subst hs
    rw [lookupA_updateA_self] at hl
    cases hl
    exact hX
  · rw [lookupA_updateA_ne m name s X hs] at hl
    have he := SeqInv_at (.map m) U hold (Tok.qs s) e
      (by simp [nodeAt_map_cons, hl, nodeAt_nil])
    exact SeqInv_congr _ _ _ (fun r j => (hagree s r j hs).symm) he

/-- Lifting the cache characterization through one processed step. -/
theorem cache_iff_step (p : List Tok) (name : String) (a : Tok)
    (Drest : List Tok) (cache c2 : List (List Tok))
    (hII : ∀ q, q ∈ c2 ↔ (q = p ++ [Tok.qs name] ∨ q ∈ cache) ∨
      (∃ r : List Tok, q = ((p ++ [Tok.qs name]) ++ [a]) ++ r ∧
        accPfx r Drest = true ∧ r.length % 2 = 1)) :
    ∀ q, q ∈ c2 ↔ q ∈ cache ∨
      (∃ r : List Tok, q = p ++ r ∧
        accPfx r (Tok.qs name :: a :: Drest) = true ∧ r.length % 2 = 1) := by
  intro q
  rw [hII q]
  constructor
  · rintro ((rfl | hq) | ⟨r, rfl, hpfx, hodd⟩)
    · refine .inr ⟨[Tok.qs name], rfl, ?_, by simp⟩
      rw [accPfx_cons_cons]
      exact ⟨rfl, rfl⟩
    · exact .inl hq
    · refine .inr ⟨Tok.qs name :: a :: r, by simp, ?_, ?_⟩
      · rw [accPfx_cons_cons]
        refine ⟨rfl, ?_⟩
        rw [accPfx_cons_cons]
        exact ⟨rfl, hpfx⟩
      · simp only [List.length_cons]
        omega
  · rintro (hq | ⟨r, rfl, hpfx, hodd⟩)
    · exact .inl (.inr hq)
    · cases r with
      | nil => simp at hodd
      | cons x r1 =>
        rw [accPfx_cons_cons] at hpfx
        obtain ⟨rfl, h2⟩ := hpfx
        cases r1 with
        | nil => exact .inl (.inl rfl)
        | cons y r2 =>
          rw [accPfx_cons_cons] at h2
          obtain ⟨rfl, h3⟩ := h2
          refine .inr ⟨r2, by simp, h3, ?_⟩
          simp only [List.length_cons] at hodd
          omega

/-- One Ordinal step's effect on the sequence at the current dimension:
grown to `max (old length) (i+1)`, position `i` replaced by the recursed
element, everything else (and the whole claim-invariant) preserved.  `l`
is the sequence's previous content (`[]` for a fresh dimension), `pb` the
absolute path of the dimension name, `Drest` the accessor path of the
remaining steps. -/
theorem seq_step_inv (WA : List Tok → Prop) (pb : List Tok) (i : Nat)
    (l l2 : List Node) (elem' : Node) (Drest : List Tok)
    (ha : ∀ j, WA (pb ++ [Tok.qi j]) → j < l.length)
    (hb : l.length ≤ i + 1 ∨ WA (pb ++ [Tok.qi (l.length - 1)]))
    (hc : ∀ j, j < l.length →
      (l.get? j = some Node.absent ↔ ¬ WA (pb ++ [Tok.qi j])))
    (holdAt : ∀ t e, l.get? t = some e →
      SeqInv e (fun r j => WA ((pb ++ [Tok.qi t]) ++ r ++ [Tok.qi j])))
    (hlen : l2.length = max l.length (i + 1))
    (hsame : ∀ j, j ≠ i → l2.get? j = (growTo l (i + 1)).get? j)
    (hne : elem' ≠ Node.absent)
    (hIH : SeqInv elem' (fun r j =>
      WA ((pb ++ [Tok.qi i]) ++ r ++ [Tok.qi j]) ∨
      accPfx (r ++ [Tok.qi j]) Drest = true)) :
    SeqInv (.seq (l2.set i elem')) (fun r j =>
      WA (pb ++ r ++ [Tok.qi j]) ∨
      accPfx (r ++ [Tok.qi j]) (Tok.qi i :: Drest) = true) := by
  have hil2 : i < l2.length := by rw [hlen]; omega
  have hl2 : (l2.set i elem').length = max l.length (i + 1) := by
    rw [List.length_set, hlen]
  apply SeqInv_seq
  · refine ⟨?_, ?_, ?_⟩
    · intro j hj
      rcases hj with hwa | hpfx
      · rw [List.append_nil] at hwa
        have := ha j hwa
        rw [hl2]
        omega
      · rw [List.nil_append] at hpfx
        obtain ⟨he, _⟩ := (accPfx_cons_cons _ _ _ _).mp hpfx
        have : j = i := by simpa using he
        rw [hl2, this]
        omega
    · by_cases hcase : l.length ≤ i + 1
      · right
        have hmax : max l.length (i + 1) = i + 1 := by omega
        rw [hl2, hmax, List.nil_append]
        simp [accPfx]
      · left
        rcases hb with hb1 | hb2
        · omega
        · have hmax : max l.length (i + 1) = l.length := by omega
          rw [hl2, hmax, List.append_nil]
          exact hb2
    · intro j hj
      by_cases hji : j = i
      · subst hji
        rw [get?_set_self _ _ _ hil2]
        refine iff_of_false (fun hx => hne (by injection hx)) ?_
        refine not_not_intro (Or.inr ?_)
        rw [List.nil_append]
        simp [accPfx]
      · rw [List.get?_set_ne _ _ (Ne.symm hji), hsame j hji]
        by_cases hjl : j < l.length
        · rw [get?_growTo_lt _ _ _ hjl, hc j hjl]
          have hfa : accPfx ([] ++ [Tok.qi j]) (Tok.qi i :: Drest) = false := by
            rw [List.nil_append]
            exact accPfx_head_ne _ _ _ _ (by simp [hji])
          rw [hfa, List.append_nil]
          simp
        · have hjlt : j < i + 1 := by
            rw [hl2] at hj
            omega
          rw [get?_growTo_pad _ _ _ (by omega) hjlt]
          refine iff_of_true rfl ?_
          rintro (hwa | hpfx)
          · rw [List.append_nil] at hwa
            exact absurd (ha j hwa) (by omega)
          · rw [List.nil_append] at hpfx
            obtain ⟨hji2, _⟩ := (accPfx_cons_cons _ _ _ _).mp hpfx
            exact hji (by simpa using hji2)
  · intro t e hl
    by_cases hti : t = i
    · subst hti
      rw [get?_set_self _ _ _ hil2] at hl
      cases hl
      apply SeqInv_congr _ _ _ ?_ hIH
      intro r j
      have heq : (pb ++ [Tok.qi t]) ++ r ++ [Tok.qi j] =
          pb ++ (Tok.qi t :: r) ++ [Tok.qi j] := by simp
      rw [heq, List.cons_append]
      simp [accPfx_cons_cons]
    · rw [List.get?_set_ne _ _ (Ne.symm hti), hsame t hti] at hl
      by_cases htl : t < l.length
      · rw [get?_growTo_lt _ _ _ htl] at hl
        apply SeqInv_congr _ _ _ ?_ (holdAt t e hl)
        intro r j
        have heq : (pb ++ [Tok.qi t]) ++ r ++ [Tok.qi j] =
            pb ++ (Tok.qi t :: r) ++ [Tok.qi j] := by simp
        have hf : accPfx ((Tok.qi t :: r) ++ [Tok.qi j]) (Tok.qi i :: Drest)
            = false := by
          rw [List.cons_append]
          exact accPfx_head_ne _ _ _ _ (by simp [hti])
        rw [heq, hf]
        simp
      · have htlt : t < i + 1 := by
          by_cases h2 : t < i + 1
          · exact h2
          · exfalso
            have hnone : (growTo l (i + 1)).get? t = none := by
              rw [List.get?_eq_none]
              rw [length_growTo]
              omega
            rw [hnone] at hl
            cases hl
        rw [get?_growTo_pad _ _ _ (by omega) htlt] at hl
        cases hl
        exact SeqInv_scalar_absent _

/-- One Label step's effect on the dict at the current dimension. -/
theorem map_step_inv (WA : List Tok → Prop) (pb : List Tok) (s : String)
    (mm1 : List (String × Node)) (elem' : Node) (Drest : List Tok)
    (holdAt : ∀ s' e, s' ≠ s → lookupA mm1 s' = some e →
      SeqInv e (fun r j => WA ((pb ++ [Tok.qs s']) ++ r ++ [Tok.qi j])))
    (hIH : SeqInv elem' (fun r j =>
      WA ((pb ++ [Tok.qs s]) ++ r ++ [Tok.qi j]) ∨
      accPfx (r ++ [Tok.qi j]) Drest = true)) :
    SeqInv (.map (updateA mm1 s elem')) (fun r j =>
      WA (pb ++ r ++ [Tok.qi j]) ∨
      accPfx (r ++ [Tok.qi j]) (Tok.qs s :: Drest) = true) := by
  apply SeqInv_map
  intro s' e hl
  by_cases hs : s' = s
  · subst hs
    rw [lookupA_updateA_self] at hl
    cases hl
    apply SeqInv_congr _ _ _ ?_ hIH
    intro r j
    have heq : (pb ++ [Tok.qs s']) ++ r ++ [Tok.qi j] =
        pb ++ (Tok.qs s' :: r) ++ [Tok.qi j] := by simp
    rw [heq, List.cons_append]
    simp [accPfx_cons_cons]
  · rw [lookupA_updateA_ne _ _ _ _ hs] at hl
    apply SeqInv_congr _ _ _ ?_ (holdAt s' e hs hl)
    intro r j
    have heq : (pb ++ [Tok.qs s']) ++ r ++ [Tok.qi j] =
        pb ++ (Tok.qs s' :: r) ++ [Tok.qi j] := by simp
    have hf : accPfx ((Tok.qs s' :: r) ++ [Tok.qi j]) (Tok.qs s :: Drest)
        = false := by
      rw [List.cons_append]
      exact accPfx_head_ne _ _ _ _ (by simp [hs])
    rw [heq, hf]
    simp

/-- One loop-body iteration preserves the cache characterization and the
sequence-shape invariant, given that the recursion on the remaining steps
does (`hrec`) and never returns the Absence marker (`hshape`).  `WA` is
the set of build-string paths already realized by earlier placements;
`Drest` abbreviates the accessor path of the remaining steps. -/
theorem body_inv (WA : List Tok → Prop)
    (hmono : ∀ q r, WA (q ++ r) → WA q)
    (recur : Node → List Tok → List (List Tok) → List String →
      Except Err (Node × List (List Tok) × List String))
    (Drest : List Tok)
    (hrec : ∀ elem pth cch rp t2 c2 r2,
      recur elem pth cch rp = .ok (t2, c2, r2) →
      pth.length % 2 = 0 →
      (∀ q, q.length % 2 = 1 → WA q → q ∈ cch) →
      (∀ r : List Tok, r ≠ [] → (pth ++ r) ∈ cch → WA (pth ++ r)) →
      SeqInv elem (fun r j => WA (pth ++ r ++ [Tok.qi j])) →
      (∀ q, q ∈ c2 ↔ q ∈ cch ∨
        (∃ r : List Tok, q = pth ++ r ∧ accPfx r Drest = true ∧
          r.length % 2 = 1))
      ∧ SeqInv t2 (fun r j => WA (pth ++ r ++ [Tok.qi j]) ∨
          accPfx (r ++ [Tok.qi j]) Drest = true))
    (hshape : ∀ elem pth cch rp t2 c2 r2,
      recur elem pth cch rp = .ok (t2, c2, r2) → t2 ≠ Node.absent)
    (key name : String) (ix : Index) (cur : Node) (p : List Tok)
    (cache : List (List Tok)) (rep1 : List String)
    (t' : Node) (c' : List (List Tok)) (r' : List String)
    (h : _add_datum_body recur key name ix cur p cache rep1 = .ok (t', c', r'))
    (hp : p.length % 2 = 0)
    (hc1 : ∀ q, q.length % 2 = 1 → WA q → q ∈ cache)
    (hc2 : ∀ r : List Tok, r ≠ [] → (p ++ r) ∈ cache → WA (p ++ r))
    (hinv : SeqInv cur (fun r j => WA (p ++ r ++ [Tok.qi j]))) :
    (∀ q, q ∈ c' ↔ q ∈ cache ∨
      (∃ r : List Tok, q = p ++ r ∧
        accPfx r (Tok.qs name :: accOf ix :: Drest) = true ∧
        r.length % 2 = 1))
    ∧ SeqInv t' (fun r j => WA (p ++ r ++ [Tok.qi j]) ∨
        accPfx (r ++ [Tok.qi j]) (Tok.qs name :: accOf ix :: Drest) = true) := by
  simp only [_add_datum_body] at h
  have hagree : ∀ (s' : String) (r : List Tok) (j : Nat), s' ≠ name →
      ((fun r j => WA (p ++ r ++ [Tok.qi j]) ∨
        accPfx (r ++ [Tok.qi j]) (Tok.qs name :: accOf ix :: Drest) = true)
          (Tok.qs s' :: r) j
        ↔ (fun r j => WA (p ++ r ++ [Tok.qi j])) (Tok.qs s' :: r) j) := by
    intro s' r j hs'
    show WA (p ++ (Tok.qs s' :: r) ++ [Tok.qi j]) ∨
        accPfx ((Tok.qs s' :: r) ++ [Tok.qi j]) _ = true ↔ _
    rw [List.cons_append,
      accPfx_head_ne _ _ _ _ (show Tok.qs s' ≠ Tok.qs name by simp [hs'])]
    simp
  by_cases hmem : (p ++ [Tok.qs name]) ∈ cache
  · -- cached branch
    rw [if_pos hmem] at h
    have hWAp1 : WA (p ++ [Tok.qs name]) :=
      hc2 [Tok.qs name] (by simp) hmem
    cases cur with
    | str s0 => simp at h
    | num n0 => simp at h
    | absent => simp at h
    | seq l0 => simp at h
    | map m =>
      cases hlk : lookupA m name with
      | none => simp [hlk] at h
      | some tmp =>
        simp only [hlk] at h
        cases ix with
        | ord i =>
          cases tmp with
          | str s0 => simp at h
          | num n0 => simp at h
          | absent => simp at h
          | map mm0 => simp at h
          | seq l =>
            -- the grown sequence and the element recursed into
            have hnode : nodeAt (.map m) [Tok.qs name] = some (.seq l) := by
              simp [nodeAt_map_cons, hlk, nodeAt_nil]
            obtain ⟨ha0, hb0, hc0⟩ := hinv [Tok.qs name] l hnode
            have hseql : SeqInv (.seq l)
                (fun r j => WA (p ++ (Tok.qs name :: r) ++ [Tok.qi j])) :=
              SeqInv_at _ _ hinv (Tok.qs name) (.seq l) hnode
            have holdAt : ∀ t e, l.get? t = some e →
                SeqInv e (fun r j =>
                  WA (((p ++ [Tok.qs name]) ++ [Tok.qi t]) ++ r ++ [Tok.qi j])) := by
              intro t e hle
              have h2 := SeqInv_at (.seq l) _ hseql (Tok.qi t) e
                (by rw [nodeAt_seq_cons, hle]; simp [nodeAt_nil])
              exact SeqInv_congr _ _ _
                (fun r j => iff_of_eq (congrArg WA (by simp))) h2
            have hOldElem : ∀ e, (growTo l (i + 1)).get? i = some e →
                e ≠ Node.absent →
                SeqInv e (fun r j =>
                  WA (((p ++ [Tok.qs name]) ++ [Tok.qi i]) ++ r ++ [Tok.qi j])) := by
              intro e hgi hne
              have hil : i < l.length := by
                by_cases h2 : i < l.length
                · exact h2
                · exfalso
                  rw [get?_growTo_pad _ _ _ (by omega) (by omega)] at hgi
                  exact hne (Option.some.inj hgi).symm
              exact holdAt i e (by rw [← get?_growTo_lt l (i+1) i hil]; exact hgi)
            have hsplit : ∃ (l2v : List Node) (elemv : Node),
                (match recur elemv ((p ++ [Tok.qs name]) ++ [Tok.qi i]) cache rep1 with
                  | Except.error e => Except.error e
                  | Except.ok (elem', c2, r2) =>
                    Except.ok (.map (updateA m name (.seq (l2v.set i elem'))), c2, r2))
                  = Except.ok (t', c', r')
                ∧ l2v.length = max l.length (i + 1)
                ∧ (∀ j, j ≠ i → l2v.get? j = (growTo l (i + 1)).get? j)
                ∧ SeqInv elemv (fun r j =>
                    WA (((p ++ [Tok.qs name]) ++ [Tok.qi i]) ++ r ++ [Tok.qi j])) := by
              cases hgi : (growTo l (i + 1)).get? i with
              | none => simp only [hgi] at h; cases h
              | some e =>
                cases e with
                | absent =>
                  have hg2 : ((growTo l (i + 1)).set i (Node.map [])).get? i
                      = some (.map []) :=
                    get?_set_self _ _ _ (by
                      rw [length_growTo]
                      exact lt_of_lt_of_le (Nat.lt_succ_self i) (le_max_right _ _))
                  simp only [hgi, hg2] at h
                  refine ⟨(growTo l (i + 1)).set i (.map []), .map [], h, ?_, ?_, ?_⟩
                  · rw [List.length_set, length_growTo]
                  · intro j hj
                    rw [List.get?_set_ne _ _ (Ne.symm hj)]
                  · exact SeqInv_map_nil _
                | str s2 =>
                  simp only [hgi] at h
                  exact ⟨growTo l (i + 1), .str s2, h, length_growTo l (i+1),
                    fun j _ => rfl, hOldElem _ hgi (by simp)⟩
                | num n2 =>
                  simp only [hgi] at h
                  exact ⟨growTo l (i + 1), .num n2, h, length_growTo l (i+1),
                    fun j _ => rfl, hOldElem _ hgi (by simp)⟩
                | seq l2' =>
                  simp only [hgi] at h
                  exact ⟨growTo l (i + 1), .seq l2', h, length_growTo l (i+1),
                    fun j _ => rfl, hOldElem _ hgi (by simp)⟩
                | map mm2 =>
                  simp only [hgi] at h
                  exact ⟨growTo l (i + 1), .map mm2, h, length_growTo l (i+1),
                    fun j _ => rfl, hOldElem _ hgi (by simp)⟩
            obtain ⟨l2v, elemv, h, hlen2, hsame2, heinv⟩ := hsplit
            cases hrec2 : recur elemv ((p ++ [Tok.qs name]) ++ [Tok.qi i])
                cache rep1 with
            | error e2 => rw [hrec2] at h; cases h
            | ok out =>
              obtain ⟨elem', c2, r2⟩ := out
              rw [hrec2] at h
              cases h
              obtain ⟨ihc, ihs⟩ := hrec elemv _ cache rep1 elem' c' r' hrec2
                (by simp [Nat.add_mod, hp])
                hc1
                (by
                  intro r hr hin
                  have heq : (p ++ [Tok.qs name]) ++ [Tok.qi i] ++ r =
                      p ++ ([Tok.qs name] ++ [Tok.qi i] ++ r) := by simp
                  rw [heq] at hin ⊢
                  exact hc2 _ (by simp) hin)
                heinv
              constructor
              · refine cache_iff_step p name (Tok.qi i) Drest cache c' ?_
                intro q
                refine (ihc q).trans ?_
                constructor
                · rintro (hq | hq)
                  · exact .inl (.inr hq)
                  · exact .inr hq
                · rintro ((rfl | hq) | hq)
                  · exact .inl hmem
                  · exact .inl hq
                  · exact .inr hq
              · show SeqInv (.map (updateA m name (.seq (l2v.set i elem')))) _
                apply SeqInv_map_update m name _
                  (fun r j => WA (p ++ r ++ [Tok.qi j])) _ hinv hagree
                have hstep := seq_step_inv WA (p ++ [Tok.qs name]) i l l2v elem'
                  Drest ha0 (.inr hb0) hc0 holdAt hlen2 hsame2
                  (hshape _ _ _ _ _ _ _ hrec2) ihs
                apply SeqInv_congr _ _ _ ?_ hstep
                intro r j
                show _ ↔ WA (p ++ (Tok.qs name :: r) ++ [Tok.qi j]) ∨
                  accPfx ((Tok.qs name :: r) ++ [Tok.qi j]) _ = true
                rw [List.cons_append]
                have heq : (p ++ [Tok.qs name]) ++ r ++ [Tok.qi j] =
                    p ++ (Tok.qs name :: r) ++ [Tok.qi j] := by simp
                rw [heq]
                simp [accPfx_cons_cons, accOf]
        | lab s =>
            cases tmp with
            | str s0 => simp at h
            | num n0 => simp at h
            | absent => simp at h
            | seq l0 => simp at h
            | map mm =>
              have hnode : nodeAt (.map m) [Tok.qs name] = some (.map mm) := by
                simp [nodeAt_map_cons, hlk, nodeAt_nil]
              have hmm : SeqInv (.map mm)
                  (fun r j => WA (p ++ (Tok.qs name :: r) ++ [Tok.qi j])) :=
                SeqInv_at _ _ hinv (Tok.qs name) (.map mm) hnode
              have holdAtL : ∀ s' e, lookupA mm s' = some e →
                  SeqInv e (fun r j =>
                    WA (((p ++ [Tok.qs name]) ++ [Tok.qs s']) ++ r ++ [Tok.qi j])) := by
                intro s' e hle
                have h2 := SeqInv_at (.map mm) _ hmm (Tok.qs s') e
                  (by simp [nodeAt_map_cons, hle, nodeAt_nil])
                exact SeqInv_congr _ _ _
                  (fun r j => iff_of_eq (congrArg WA (by simp))) h2
              have hsplit : ∃ (mm1v : List (String × Node)) (elemv : Node),
                  (match recur elemv ((p ++ [Tok.qs name]) ++ [Tok.qs s]) cache rep1 with
                    | Except.error e => Except.error e
                    | Except.ok (elem', c2, r2) =>
                      Except.ok (.map (updateA m name (.map (updateA mm1v s elem'))), c2, r2))
                    = Except.ok (t', c', r')
                  ∧ (∀ s', s' ≠ s → lookupA mm1v s' = lookupA mm s')
                  ∧ SeqInv elemv (fun r j =>
                      WA (((p ++ [Tok.qs name]) ++ [Tok.qs s]) ++ r ++ [Tok.qi j])) := by
                cases hgs : lookupA mm s with
                | some e0 =>
                  simp only [hgs, Option.isSome_some, if_true] at h
                  exact ⟨mm, e0, h, fun s' _ => rfl, holdAtL s e0 hgs⟩
                | none =>
                  have hap : lookupA (mm ++ [(s, Node.map [])]) s = some (.map []) :=
                    lookupA_append_single_self mm s _ hgs
                  simp only [hgs, Option.isSome_none, Bool.false_eq_true,
                    if_false, hap] at h
                  exact ⟨mm ++ [(s, Node.map [])], .map [], h,
                    fun s' hs' => lookupA_append_single_ne mm s s' _ hs',
                    SeqInv_map_nil _⟩
              obtain ⟨mm1v, elemv, h, hmm1, heinv⟩ := hsplit
              cases hrec2 : recur elemv ((p ++ [Tok.qs name]) ++ [Tok.qs s])
                  cache rep1 with
              | error e2 => rw [hrec2] at h; cases h
              | ok out =>
                obtain ⟨elem', c2, r2⟩ := out
                rw [hrec2] at h
                cases h
                obtain ⟨ihc, ihs⟩ := hrec elemv _ cache rep1 elem' c' r' hrec2
                  (by simp [Nat.add_mod, hp])
                  hc1
                  (by
                    intro r hr hin
                    have heq : (p ++ [Tok.qs name]) ++ [Tok.qs s] ++ r =
                        p ++ ([Tok.qs name] ++ [Tok.qs s] ++ r) := by simp
                    rw [heq] at hin ⊢
                    exact hc2 _ (by simp) hin)
                  heinv
                constructor
                · refine cache_iff_step p name (Tok.qs s) Drest cache c' ?_
                  intro q
                  refine (ihc q).trans ?_
                  constructor
                  · rintro (hq | hq)
                    · exact .inl (.inr hq)
                    · exact .inr hq
                  · rintro ((rfl | hq) | hq)
                    · exact .inl hmem
                    · exact .inl hq
                    · exact .inr hq
                · show SeqInv (.map (updateA m name (.map (updateA mm1v s elem')))) _
                  apply SeqInv_map_update m name _
                    (fun r j => WA (p ++ r ++ [Tok.qi j])) _ hinv hagree
                  have hstep := map_step_inv WA (p ++ [Tok.qs name]) s mm1v elem'
                    Drest (fun s' e hs' hle => by
                      rw [hmm1 s' hs'] at hle
                      exact holdAtL s' e hle) ihs
                  apply SeqInv_congr _ _ _ ?_ hstep
                  intro r j
                  show _ ↔ WA (p ++ (Tok.qs name :: r) ++ [Tok.qi j]) ∨
                    accPfx ((Tok.qs name :: r) ++ [Tok.qi j]) _ = true
                  rw [List.cons_append]
                  have heq : (p ++ [Tok.qs name]) ++ r ++ [Tok.qi j] =
                      p ++ (Tok.qs name :: r) ++ [Tok.qi j] := by simp
                  rw [heq]
                  simp [accPfx_cons_cons, accOf]
  · -- new-dimension branch
    rw [if_neg hmem] at h
    have hnWA : ¬ WA (p ++ [Tok.qs name]) := fun hw =>
      hmem (hc1 _ (by simp [Nat.add_mod, hp]) hw)
    cases cur with
    | str s0 => simp at h
    | num n0 => simp at h
    | absent => simp at h
    | seq l0 => simp at h
    | map m =>
      have hc1' : ∀ q, q.length % 2 = 1 → WA q →
          q ∈ (p ++ [Tok.qs name]) :: cache :=
        fun q hq hw => List.mem_cons_of_mem _ (hc1 q hq hw)
      cases ix with
      | ord i =>
        cases hrec2 : recur (.map []) ((p ++ [Tok.qs name]) ++ [Tok.qi i])
            ((p ++ [Tok.qs name]) :: cache) rep1 with
        | error e2 => simp only [hrec2] at h; cases h
        | ok out =>
          obtain ⟨elem', c2, r2⟩ := out
          simp only [hrec2] at h
          cases h
          obtain ⟨ihc, ihs⟩ := hrec (.map []) _ _ rep1 elem' c' r' hrec2
            (by simp [Nat.add_mod, hp])
            hc1'
            (by
              intro r hr hin
              rcases List.mem_cons.mp hin with h1 | h2
              · exfalso
                have := congrArg List.length h1
                simp at this
              · have heq : (p ++ [Tok.qs name]) ++ [Tok.qi i] ++ r =
                    p ++ ([Tok.qs name] ++ [Tok.qi i] ++ r) := by simp
                rw [heq] at h2 ⊢
                exact hc2 _ (by simp) h2)
            (SeqInv_map_nil _)
          constructor
          · refine cache_iff_step p name (Tok.qi i) Drest cache c' ?_
            intro q
            refine (ihc q).trans (or_congr_left ?_)
            exact List.mem_cons
          · show SeqInv (.map (updateA m name
              (.seq ((List.replicate (i + 1) Node.absent).set i elem')))) _
            apply SeqInv_map_update m name _
              (fun r j => WA (p ++ r ++ [Tok.qi j])) _ hinv hagree
            have hstep := seq_step_inv WA (p ++ [Tok.qs name]) i []
              (List.replicate (i + 1) Node.absent) elem' Drest
              (fun j hw => absurd (hmono _ _ hw) hnWA)
              (.inl (by simp))
              (fun j hj => absurd hj (by simp))
              (fun t e hle => by cases hle)
              (by simp)
              (fun j _ => rfl)
              (hshape _ _ _ _ _ _ _ hrec2) ihs
            apply SeqInv_congr _ _ _ ?_ hstep
            intro r j
            show _ ↔ WA (p ++ (Tok.qs name :: r) ++ [Tok.qi j]) ∨
              accPfx ((Tok.qs name :: r) ++ [Tok.qi j]) _ = true
            rw [List.cons_append]
            have heq : (p ++ [Tok.qs name]) ++ r ++ [Tok.qi j] =
                p ++ (Tok.qs name :: r) ++ [Tok.qi j] := by simp
            rw [heq]
            simp [accPfx_cons_cons, accOf]
      | lab s =>
        cases hrec2 : recur (.map []) ((p ++ [Tok.qs name]) ++ [Tok.qs s])
            ((p ++ [Tok.qs name]) :: cache) rep1 with
        | error e2 => simp only [hrec2] at h; cases h
        | ok out =>
          obtain ⟨elem', c2, r2⟩ := out
          simp only [hrec2] at h
          cases h
          obtain ⟨ihc, ihs⟩ := hrec (.map []) _ _ rep1 elem' c' r' hrec2
            (by simp [Nat.add_mod, hp])
            hc1'
            (by
              intro r hr hin
              rcases List.mem_cons.mp hin with h1 | h2
              · exfalso
                have := congrArg List.length h1
                simp at this
              · have heq : (p ++ [Tok.qs name]) ++ [Tok.qs s] ++ r =
                    p ++ ([Tok.qs name] ++ [Tok.qs s] ++ r) := by simp
                rw [heq] at h2 ⊢
                exact hc2 _ (by simp) h2)
            (SeqInv_map_nil _)
          constructor
          · refine cache_iff_step p name (Tok.qs s) Drest cache c' ?_
            intro q
            refine (ihc q).trans (or_congr_left ?_)
            exact List.mem_cons
          · show SeqInv (.map (updateA m name (.map [(s, elem')]))) _
            apply SeqInv_map_update m name _
              (fun r j => WA (p ++ r ++ [Tok.qi j])) _ hinv hagree
            have hstep := map_step_inv WA (p ++ [Tok.qs name]) s [] elem' Drest
              (fun s' e _ hle => by cases hle) ihs
            apply SeqInv_congr _ _ _ ?_ hstep
            intro r j
            show _ ↔ WA (p ++ (Tok.qs name :: r) ++ [Tok.qi j]) ∨
              accPfx ((Tok.qs name :: r) ++ [Tok.qi j]) _ = true
            rw [List.cons_append]
            have heq : (p ++ [Tok.qs name]) ++ r ++ [Tok.qi j] =
                p ++ (Tok.qs name :: r) ++ [Tok.qi j] := by simp
            rw [heq]
            simp [accPfx_cons_cons, accOf]

/-- A successful placement of a scalar never returns the Absence marker. -/
theorem loop_shape_str (bi : Option Nat) (v key : String) (steps : List Step)
    (elem : Node) (pth : List Tok) (cch : List (List Tok)) (rp : List String)
    (t2 : Node) (c2 : List (List Tok)) (r2 : List String)
    (h : _add_datum_loop bi (.str v) key steps elem pth cch rp =
      .ok (t2, c2, r2)) :
    t2 ≠ Node.absent := by
  rcases place_shape bi v key steps elem pth cch rp t2 c2 r2 h with
    ⟨-, rfl⟩ | ⟨mm, rfl⟩
  · simp
  · simp

/-- The per-placement invariant, by induction over the remaining steps:
from a position `pth` whose cache and subtree satisfy the usage
characterization for the prior-usage relation `WA`, a successful descent
produces the cache extended by exactly the odd-length extensions of `pth`
along this key, and a subtree whose sequences obey the shape invariant for
usage-by-`WA`-or-this-key. -/
theorem loop_inv (bi : Option Nat) (v key : String)
    (WA : List Tok → Prop)
    (hmono : ∀ q r, WA (q ++ r) → WA q) :
    ∀ (steps : List Step) (elem : Node) (pth : List Tok)
      (cch : List (List Tok)) (rp : List String)
      (t2 : Node) (c2 : List (List Tok)) (r2 : List String),
      _add_datum_loop bi (.str v) key steps elem pth cch rp = .ok (t2, c2, r2) →
      pth.length % 2 = 0 →
      (∀ q, q.length % 2 = 1 → WA q → q ∈ cch) →
      (∀ r : List Tok, r ≠ [] → (pth ++ r) ∈ cch → WA (pth ++ r)) →
      SeqInv elem (fun r j => WA (pth ++ r ++ [Tok.qi j])) →
      (∀ q, q ∈ c2 ↔ q ∈ cch ∨
        (∃ r : List Tok, q = pth ++ r ∧ accPfx r (stepsAcc steps) = true ∧
          r.length % 2 = 1))
      ∧ SeqInv t2 (fun r j => WA (pth ++ r ++ [Tok.qi j]) ∨
          accPfx (r ++ [Tok.qi j]) (stepsAcc steps) = true) := by
  intro steps
  induction steps with
  | nil =>
    intro elem pth cch rp t2 c2 r2 h hp hc1 hc2 hinv
    rw [_add_datum_loop] at h
    cases h
    constructor
    · intro q
      constructor
      · exact fun hq => .inl hq
      · rintro (hq | ⟨rr, rfl, hpfx, hodd⟩)
        · exact hq
        · exfalso
          obtain ⟨tl, htl⟩ := accPfx_exists rr (stepsAcc []) hpfx
          rw [show stepsAcc ([] : List Step) = [] from rfl] at htl
          obtain ⟨rfl, -⟩ := List.append_eq_nil.mp htl.symm
          simp at hodd
    · exact SeqInv_scalar_str v _
  | cons s rest ih =>
    obtain ⟨name, ix⟩ := s
    intro elem pth cch rp t2 c2 r2 h hp hc1 hc2 hinv
    obtain ⟨rep1, hbody⟩ :=
      loop_cons_ok bi (.str v) key name ix rest elem pth cch rp (t2, c2, r2) h
    have hmain := body_inv WA hmono
      (fun e2 pth2 cch2 rp2 => _add_datum_loop bi (.str v) key rest e2 pth2 cch2 rp2)
      (stepsAcc rest)
      (fun e2 p2 ca ra ta cb rb hh hpp hcc1 hcc2 hii =>
        ih e2 p2 ca ra ta cb rb hh hpp hcc1 hcc2 hii)
      (fun e2 p2 ca ra ta cb rb hh =>
        loop_shape_str bi v key rest e2 p2 ca ra ta cb rb hh)
      key name ix elem pth cch rep1 t2 c2 r2 hbody hp hc1 hc2 hinv
    rw [stepsAcc_cons]
    exact hmain

/-- A build path realized by the placement history `Hdone`: it is an
accessor-path prefix of one of the placed keys. -/
def WAH (Hdone : List (List Step × String)) (q : List Tok) : Prop :=
  ∃ x, x ∈ Hdone ∧ accPfx q (stepsAcc x.1) = true

theorem WAH_mono (Hdone : List (List Step × String)) (q r : List Tok)
    (h : WAH Hdone (q ++ r)) : WAH Hdone q := by
  obtain ⟨x, hx, hpfx⟩ := h
  exact ⟨x, hx, accPfx_append_left q r _ hpfx⟩

theorem WAH_append_single (Hdone : List (List Step × String))
    (steps : List Step) (v : String) (q : List Tok) :
    WAH (Hdone ++ [(steps, v)]) q ↔
      WAH Hdone q ∨ accPfx q (stepsAcc steps) = true := by
  constructor
  · rintro ⟨x, hx, hpfx⟩
    rcases List.mem_append.mp hx with h1 | h1
    · exact .inl ⟨x, h1, hpfx⟩
    · rw [List.mem_singleton.mp h1] at hpfx
      exact .inr hpfx
  · rintro (⟨x, hx, hpfx⟩ | hpfx)
    · exact ⟨x, List.mem_append.mpr (.inl hx), hpfx⟩
    · exact ⟨(steps, v), List.mem_append.mpr (.inr (List.mem_singleton.mpr rfl)),
        hpfx⟩

theorem usedB_iff (H : List (List Step × String)) (q : List Tok) (i : Nat) :
    usedB H q i = true ↔ WAH H (q ++ [Tok.qi i]) := by
  simp [usedB, WAH, List.any_eq_true]

/-- The whole-run invariant: threading the placement list through the tree
keeps every sequence shaped by the total usage of the processed history. -/
theorem runPlacements_inv (bi : Option Nat) :
    ∀ (H Hdone : List (List Step × String)) (t : Node)
      (c : List (List Tok)) (r : List String)
      (t2 : Node) (c2 : List (List Tok)) (r2 : List String),
      runPlacements bi H t c r = .ok (t2, c2, r2) →
      (∀ q, q.length % 2 = 1 → WAH Hdone q → q ∈ c) →
      (∀ q : List Tok, q ≠ [] → q ∈ c → WAH Hdone q) →
      SeqInv t (fun q j => WAH Hdone (q ++ [Tok.qi j])) →
      SeqInv t2 (fun q j => WAH (Hdone ++ H) (q ++ [Tok.qi j])) := by
  intro H
  induction H with
  | nil =>
    intro Hdone t c r t2 c2 r2 h hc1 hc2 hinv
    rw [runPlacements] at h
    cases h
    simpa using hinv
  | cons hd rest ih =>
    obtain ⟨steps, v⟩ := hd
    intro Hdone t c r t2 c2 r2 h hc1 hc2 hinv
    rw [runPlacements] at h
    cases hloop : _add_datum_loop bi (.str v) "" steps t [] c r with
    | error e => rw [hloop] at h; cases h
    | ok out =>
      obtain ⟨t1, c1, r1⟩ := out
      simp only [hloop] at h
      obtain ⟨hcache, hseq⟩ := loop_inv bi v "" (WAH Hdone)
        (WAH_mono Hdone) steps t [] c r t1 c1 r1 hloop (by rfl) hc1 hc2 hinv
      have hfin := ih (Hdone ++ [(steps, v)]) t1 c1 r1 t2 c2 r2 h
        (by
          intro q hq hw
          rcases (WAH_append_single Hdone steps v q).mp hw with hw1 | hw2
          · exact (hcache q).mpr (.inl (hc1 q hq hw1))
          · exact (hcache q).mpr (.inr ⟨q, rfl, hw2, hq⟩))
        (by
          intro q hq hin
          rcases (hcache q).mp hin with h1 | ⟨rr, heq, hpfx, hodd⟩
          · exact (WAH_append_single Hdone steps v q).mpr (.inl (hc2 q hq h1))
          · rw [List.nil_append] at heq
            subst heq
            exact (WAH_append_single Hdone steps v q).mpr (.inr hpfx))
        (SeqInv_congr _ _ _
          (fun q j => (WAH_append_single Hdone steps v (q ++ [Tok.qi j])).symm)
          hseq)
      have he : (Hdone ++ [(steps, v)]) ++ rest = Hdone ++ (steps, v) :: rest := by
        simp
      rw [he] at hfin
      exact hfin

/-- C3: after a successful run of placements into an empty root dict,
every sequence reachable in the tree has length exactly one more than the
largest Ordinal position used at its path by the placed keys, and a
position of the sequence holds the Absence marker exactly when no placed
key descended through or assigned it. -/
theorem C3_sequence_lengths (bi : Option Nat) (H : List (List Step × String))
    (t : Node) (c : List (List Tok)) (r : List String)
    (h : runPlacements bi H (.map []) [] [] = .ok (t, c, r))
    (q : List Tok) (l : List Node) (hq : nodeAt t q = some (.seq l)) :
    (∀ j, usedB H q j = true → j < l.length)
    ∧ usedB H q (l.length - 1) = true
    ∧ ∀ j, j < l.length →
        (l.get? j = some Node.absent ↔ usedB H q j = false) := by
  have hrun := runPlacements_inv bi H [] (.map []) [] [] t c r h
    (by rintro q2 - ⟨x, hx, -⟩; cases hx)
    (by rintro q2 - hin; cases hin)
    (SeqInv_map_nil _)
  obtain ⟨h1, h2, h3⟩ := hrun q l hq
  have hiff : ∀ j, usedB H q j = true ↔ WAH ([] ++ H) (q ++ [Tok.qi j]) :=
    fun j => usedB_iff H q j
  refine ⟨fun j hj => h1 j ((hiff j).mp hj), (hiff _).mpr h2,
    fun j hjl => (h3 j hjl).trans ?_⟩
  show ¬ WAH ([] ++ H) (q ++ [Tok.qi j]) ↔ usedB H q j = false
  rw [← hiff j]
  simp

/-- Placing only `a.1`: position 1 is used, and position 0 holds the
Absence marker because it was never used. -/
theorem C3_sequence_lengths_witness :
    usedB [([("a", Index.ord 1)], "v")] [Tok.qs "a"] 1 = true
    ∧ ([Node.absent, Node.str "v"].get? 0 = some Node.absent ↔
        usedB [([("a", Index.ord 1)], "v")] [Tok.qs "a"] 0 = false) := by
  have h := C3_sequence_lengths none [([("a", Index.ord 1)], "v")]
    (.map [("a", .seq [Node.absent, .str "v"])]) [[Tok.qs "a"]] []
    (by rfl) [Tok.qs "a"] [Node.absent, Node.str "v"] (by rfl)
  exact ⟨h.2.1, h.2.2 0 (by decide)⟩
